import Mathlib

/-!
# Verification of the chunking and hybrid retrieval pipeline

Shallow embedding of `backend/ingest.py` (the chunker) and
`backend/retrieval.py` (RRF fusion, tiered reranking, the retrieval
orchestrator), with theorems settling the spec claims.

Modelling conventions:
* Python strings are `List Char`; Python floats are exact rationals `ℚ`.
* External providers (Supabase, OpenAI, Cohere) are oracles in an `Env`
  record; a call that would raise is modelled as `Except.error ()`.
  A Python `try/except` that swallows the error is modelled by matching
  the `Except` and substituting the fallback value, so an uncaught
  exception surfaces as `Except.error` in the result.
* Python's stable `sorted(..., reverse=True)` is modelled by Mathlib's
  `List.insertionSort` with the reflexive-descending relation: both are
  stable sorts for the same total preorder, hence produce the same list.
-/

namespace RagPlatform

/-! ## Chunker (`backend/ingest.py`, `chunk_text`) -/

/-- Python `str` whitespace characters (ASCII range), as used by
`str.strip()` and `\s` in the sentence-splitting regex. -/
def pyIsSpace (c : Char) : Bool :=
  c = ' ' || c = '\t' || c = '\n' || c = '\r' || c = '\x0b' || c = '\x0c'

/-- Python `str.strip()`: drop whitespace from both ends. -/
def pyStrip (l : List Char) : List Char :=
  ((l.dropWhile pyIsSpace).reverse.dropWhile pyIsSpace).reverse

/-- Auxiliary scanner for `text.split("\n\n")`: left-to-right,
non-overlapping occurrences of the two-character separator. -/
def splitParasGo : List Char → List Char → List (List Char)
  | [], acc => [acc.reverse]
  | [c], acc => [(c :: acc).reverse]
  | c :: d :: rest, acc =>
    if c = '\n' && d = '\n' then
      acc.reverse :: splitParasGo rest []
    else
      splitParasGo (d :: rest) (c :: acc)
termination_by l _ => l.length
decreasing_by
  · simp [List.length_cons]; omega
  · simp [List.length_cons]

/-- Python `text.split("\n\n")`. -/
def splitParas (l : List Char) : List (List Char) :=
  splitParasGo l []

/-- Sentence-terminator test: the character class `[.!?]`. -/
def isSentEnd (c : Char) : Bool :=
  c = '.' || c = '!' || c = '?'

theorem dropWhile_len_le (p : Char → Bool) :
    ∀ l : List Char, (l.dropWhile p).length ≤ l.length := by
  intro l
  induction l with
  | nil => simp [List.dropWhile]
  | cons c rest ih =>
    simp only [List.dropWhile]
    split
    · exact Nat.le_trans ih (Nat.le_succ _)
    · exact Nat.le_refl _

/-- Auxiliary scanner for `re.split(r"(?<=[.!?])\s+", t)`: cut after a
terminator that is followed by whitespace, consuming the whole
whitespace run (greedy `\s+`). -/
def splitSentGo : List Char → List Char → List (List Char)
  | [], acc => [acc.reverse]
  | [c], acc => [(c :: acc).reverse]
  | c :: d :: rest, acc =>
    if isSentEnd c && pyIsSpace d then
      (c :: acc).reverse :: splitSentGo (rest.dropWhile pyIsSpace) []
    else
      splitSentGo (d :: rest) (c :: acc)
termination_by l _ => l.length
decreasing_by
  · simp only [List.length_cons]
    have := dropWhile_len_le pyIsSpace rest
    omega
  · simp [List.length_cons]

/-- `split_by_sentences` from `chunk_text`: regex split, strip each
part, keep the non-empty ones. -/
def split_by_sentences (t : List Char) : List (List Char) :=
  ((splitSentGo t []).map pyStrip).filter (· ≠ [])

/-- `[t[i:i+limit] for i in range(0, len(t), limit)]` (before the
per-piece `.strip()`), for `limit ≥ 1`; the `max limit 1` guard makes
the function total (the source only ever uses `limit = 18000`). -/
def charSlices (limit : Nat) : List Char → List (List Char)
  | [] => []
  | c :: rest =>
    (c :: rest).take (max limit 1) :: charSlices limit ((c :: rest).drop (max limit 1))
termination_by l => l.length
decreasing_by simp only [List.length_drop, List.length_cons]; omega

/-- One step of the sentence-packing loop inside `split_long`.  State is
`(result, current)`. -/
def splitLongStep (limit : Nat) (st : List (List Char) × List Char)
    (sent : List Char) : List (List Char) × List Char :=
  if limit < sent.length then
    ((if st.2 ≠ [] then st.1 ++ [pyStrip st.2] else st.1) ++
        (charSlices limit sent).map pyStrip, [])
  else if st.2.length + sent.length + 1 ≤ limit then
    (st.1, if st.2 ≠ [] then st.2 ++ ' ' :: sent else sent)
  else
    ((if st.2 ≠ [] then st.1 ++ [pyStrip st.2] else st.1), sent)

/-- The sentence-packing loop of `split_long` plus its trailing
`if current: result.append(current.strip())` flush. -/
def sentencePack (limit : Nat) (sents : List (List Char)) : List (List Char) :=
  if (sents.foldl (splitLongStep limit) ([], [])).2 ≠ [] then
    (sents.foldl (splitLongStep limit) ([], [])).1 ++
      [pyStrip (sents.foldl (splitLongStep limit) ([], [])).2]
  else
    (sents.foldl (splitLongStep limit) ([], [])).1

/-- `split_long(t, limit)` from `chunk_text`: sentence-aware splitting
with a character-slice fallback. -/
def split_long (t : List Char) (limit : Nat) : List (List Char) :=
  if t.length ≤ limit then [t]
  else if 1 < (split_by_sentences t).length then
    sentencePack limit (split_by_sentences t)
  else
    (charSlices limit t).map pyStrip

/-- The hard ceiling `max_token_chars` in `chunk_text`. -/
def max_token_chars : Nat := 18000

/-- One step of the paragraph-packing loop in `chunk_text` for a piece
`pc` already at most `max_token_chars` long (used both for ordinary
paragraphs and for pre-split pieces).  State is `(chunks, current)`. -/
def packStep (max_chars : Nat) (st : List (List Char) × List Char)
    (pc : List Char) : List (List Char) × List Char :=
  if st.2.length + pc.length + 2 ≤ max_chars then
    (st.1, if st.2 ≠ [] then st.2 ++ '\n' :: '\n' :: pc else pc)
  else
    ((if st.2 ≠ [] then st.1 ++ [pyStrip st.2] else st.1), pc)

/-- Processing of one stripped, non-empty paragraph in `chunk_text`. -/
def paraStep (max_chars : Nat) (st : List (List Char) × List Char)
    (para : List Char) : List (List Char) × List Char :=
  if max_token_chars < para.length then
    (split_long para max_token_chars).foldl (packStep max_chars) st
  else
    packStep max_chars st para

/-- The stripped, non-empty paragraphs of the input
(`for para in text.split("\n\n")` with the `strip`/`continue` guard). -/
def chunkParas (text : List Char) : List (List Char) :=
  ((splitParas text).map pyStrip).filter (· ≠ [])

/-- The paragraph-packing loop state after processing the whole input. -/
def packLoop (max_chars : Nat) (text : List Char) : List (List Char) × List Char :=
  (chunkParas text).foldl (paraStep max_chars) ([], [])

/-- The packed chunks after the final `if current: chunks.append(...)`
flush. -/
def flushedChunks (max_chars : Nat) (text : List Char) : List (List Char) :=
  if (packLoop max_chars text).2 ≠ [] then
    (packLoop max_chars text).1 ++ [pyStrip (packLoop max_chars text).2]
  else
    (packLoop max_chars text).1

/-- `chunk_text(text, max_chars)` from `backend/ingest.py`:
paragraph → sentence → char splitting, greedy packing, a minimum-length
filter (`len(c) > 50`), and a defensive re-split of any surviving chunk
longer than `max_token_chars`. -/
def chunk_text (text : List Char) (max_chars : Nat) : List (List Char) :=
  ((flushedChunks max_chars text).filter (fun c => 50 < c.length)).foldr
    (fun c acc =>
      (if max_token_chars < c.length then split_long c max_token_chars else [c]) ++ acc)
    []

/-! ## Data model (`backend/retrieval.py` chunk records)

A retrieval chunk record (a Python dict row from `tax_law_chunks`).
`similarity` is optional because keyword rows lack it until
`keyword_search` runs `setdefault("similarity", 0.0)`; `rrf_score` and
`rerank_score` are absent until fusion / reranking writes them. -/
structure Chunk where
  id : Nat
  document_id : Nat
  chunk_text : String
  citation : String
  similarity : Option ℚ := none
  rrf_score : Option ℚ := none
  rerank_score : Option ℚ := none
deriving DecidableEq, Repr, Inhabited

/-! ## Reciprocal Rank Fusion (`rrf_fuse`) -/

/-- The `RRF_K = 60` constant. -/
def RRF_K : ℚ := 60

/-- `scores.get(cid, 0) + w` update on the scores dict, modelled as an
insertion-ordered association list (Python dicts preserve insertion
order, which the final `sorted` tie-breaking depends on). -/
def bump (k : Nat) (w : ℚ) : List (Nat × ℚ) → List (Nat × ℚ)
  | [] => [(k, w)]
  | (k', v) :: rest => if k = k' then (k', v + w) :: rest else (k', v) :: bump k w rest

/-- `scores.get(k, 0)` / `scores[k]` lookup. -/
def lookupD (x : Nat) : List (Nat × ℚ) → ℚ
  | [] => 0
  | (k, v) :: rest => if k = x then v else lookupD x rest

/-- `chunk_map[cid] = chunk`: overwrite in place, else append. -/
def setKey (k : Nat) (c : Chunk) : List (Nat × Chunk) → List (Nat × Chunk)
  | [] => [(k, c)]
  | (k', c') :: rest => if k = k' then (k, c) :: rest else (k', c') :: setKey k c rest

/-- `cid in chunk_map` membership test. -/
def hasKeyC (x : Nat) : List (Nat × Chunk) → Bool
  | [] => false
  | (k, _) :: rest => k = x || hasKeyC x rest

/-- `if cid not in chunk_map: chunk_map[cid] = chunk`. -/
def setIfAbsent (k : Nat) (c : Chunk) (m : List (Nat × Chunk)) : List (Nat × Chunk) :=
  if hasKeyC k m then m else m ++ [(k, c)]

/-- `chunk_map[cid]` lookup (total; every looked-up key is present). -/
def findChunk (x : Nat) : List (Nat × Chunk) → Chunk
  | [] => default
  | (k, c) :: rest => if k = x then c else findChunk x rest

/-- The `for rank, chunk in enumerate(vector_results, 1)` loop:
accumulate `weight / (RRF_K + rank)` and record the chunk. -/
def vecLoop (w : ℚ) : Nat → List Chunk → List (Nat × ℚ) × List (Nat × Chunk) →
    List (Nat × ℚ) × List (Nat × Chunk)
  | _, [], st => st
  | r, c :: cs, (scores, cmap) =>
    vecLoop w (r + 1) cs (bump c.id (w / (RRF_K + r)) scores, setKey c.id c cmap)

/-- The `for rank, chunk in enumerate(keyword_results, 1)` loop: the
chunk record is only stored when the id is new. -/
def kwLoop (w : ℚ) : Nat → List Chunk → List (Nat × ℚ) × List (Nat × Chunk) →
    List (Nat × ℚ) × List (Nat × Chunk)
  | _, [], st => st
  | r, c :: cs, (scores, cmap) =>
    kwLoop w (r + 1) cs (bump c.id (w / (RRF_K + r)) scores, setIfAbsent c.id c cmap)

/-- Descending order by a key function, as a relation: `a ≼ b` iff
`f b ≤ f a`.  `List.insertionSort` with this relation is the stable
descending sort, which agrees with Python's stable
`sorted(..., key=f, reverse=True)` (stable sorts for one total preorder
produce equal outputs). -/
def keyDesc {α : Type} {β : Type} [LinearOrder β] (f : α → β) : α → α → Prop :=
  fun a b => f b ≤ f a

instance {α β : Type} [LinearOrder β] (f : α → β) : DecidableRel (keyDesc f) :=
  fun a b => inferInstanceAs (Decidable (f b ≤ f a))

instance {α β : Type} [LinearOrder β] (f : α → β) : IsTotal α (keyDesc f) :=
  ⟨fun a b => (le_total (f b) (f a)).imp id id⟩

instance {α β : Type} [LinearOrder β] (f : α → β) : IsTrans α (keyDesc f) :=
  ⟨fun _ _ _ h1 h2 => le_trans h2 h1⟩

/-- The `(scores, chunk_map)` pair after both accumulation loops. -/
def rrfState (vector_results keyword_results : List Chunk)
    (vector_weight keyword_weight : ℚ) : List (Nat × ℚ) × List (Nat × Chunk) :=
  kwLoop keyword_weight 1 keyword_results
    (vecLoop vector_weight 1 vector_results ([], []))

/-- `sorted(scores, key=lambda x: scores[x], reverse=True)`: the score
dict's keys (insertion order) stably sorted by descending score. -/
def sortedIds (scores : List (Nat × ℚ)) : List Nat :=
  List.insertionSort (keyDesc (fun cid => lookupD cid scores)) (scores.map Prod.fst)

/-- `rrf_fuse(vector_results, keyword_results)` from
`backend/retrieval.py`: weighted reciprocal-rank accumulation keyed by
chunk id, then a stable descending sort of the score-dict keys, then
annotation of each stored record with its `rrf_score`. -/
def rrf_fuse (vector_results keyword_results : List Chunk)
    (vector_weight : ℚ := 3/5) (keyword_weight : ℚ := 2/5) : List Chunk :=
  (sortedIds (rrfState vector_results keyword_results vector_weight keyword_weight).1).map
    (fun cid =>
      { findChunk cid (rrfState vector_results keyword_results vector_weight keyword_weight).2 with
        rrf_score :=
          some (lookupD cid (rrfState vector_results keyword_results vector_weight keyword_weight).1) })

/-! ## External providers and the event trace

Each provider call that can raise is an `Except Unit _` oracle; the
`Event` trace records which providers a pipeline run actually called. -/

inductive Event where
  | resolveTags (tags : List String) (project_id : Option String)
  | embed (query : String)
  | vecSearch (fetch_k : Nat)
  | kwSearch (fetch_k : Nat)
  | cohereCall
  | llmCall
deriving DecidableEq, Repr

/-- The external world: Supabase tables and RPC, OpenAI, Cohere.
`cohereKey` models `settings.COHERE_API_KEY` being configured. -/
structure Env where
  taggedDocIds : List String → Option String → Except Unit (List Nat)
  embedQuery : String → Except Unit (List ℚ)
  vecSearchRpc : List ℚ → Nat → ℚ → Option String → Except Unit (List Chunk)
  kwSearchRaw : String → Nat → Option String → Option (List Nat) → Except Unit (List Chunk)
  cohereKey : Bool
  cohereRerank : String → List String → Nat → Except Unit (List (Nat × ℚ))
  llmScores : String → Except Unit (List (Nat × Int))

/-- `keyword_search` from `backend/retrieval.py`: the whole body is in
a `try/except` returning `[]`, so a backend failure degrades to an
empty list; successful rows get `setdefault("similarity", 0.0)`. -/
def keyword_search (env : Env) (query : String) (top_k : Nat)
    (project_id : Option String) (doc_ids : Option (List Nat)) : List Chunk :=
  match env.kwSearchRaw query top_k project_id doc_ids with
  | .error _ => []
  | .ok results => results.map (fun c => { c with similarity := some (c.similarity.getD 0) })

/-- Cohere document payloads: text truncated to 1500 chars, prefixed
with the citation when present. -/
def mkCohereDocs (chunks : List Chunk) : List String :=
  chunks.map (fun c =>
    let text := c.chunk_text.take 1500
    if c.citation ≠ "" then "[" ++ c.citation ++ "] " ++ text else text)

/-- `rerank_cohere(query, chunks, top_k)`: `none` models the Python
`None` that signals "try the fallback".  A provider response carrying
an out-of-range index would raise `IndexError` inside the `try`, which
the `except` turns into `None` as well.  (Python mutates the chunk dict
to set `rerank_score`; the pure model writes the field on the returned
record.)  The second component is the call trace. -/
def rerank_cohere (env : Env) (query : String) (chunks : List Chunk) (top_k : Nat) :
    Option (List Chunk) × List Event :=
  if chunks.length = 0 ∨ chunks.length ≤ top_k then (some (chunks.take top_k), [])
  else if ¬env.cohereKey then (none, [])
  else
    match env.cohereRerank query (mkCohereDocs chunks) top_k with
    | .error _ => (none, [.cohereCall])
    | .ok results =>
      if results.all (fun r => r.1 < chunks.length) then
        (some (results.map (fun r => { chunks.getD r.1 default with rerank_score := some r.2 })),
         [.cohereCall])
      else (none, [.cohereCall])

/-- The GPT-4o-mini scoring prompt (`rerank_with_llm`). -/
def mkLlmPrompt (query : String) (chunks : List Chunk) : String :=
  let formatted := chunks.enum.map (fun ic =>
    let i := ic.1
    let c := ic.2
    let text := c.chunk_text.take 400
    let citation := if c.citation = "" then "Unknown" else c.citation
    "[" ++ toString i ++ "] (" ++ citation ++ ")\n" ++ text)
  let chunks_block := String.intercalate "\n\n" formatted
  "Score each chunk's relevance to this Washington State tax law question.\n\n"
    ++ "Question: " ++ query ++ "\n\n"
    ++ "Chunks:\n" ++ chunks_block ++ "\n\n"
    ++ "Return JSON only: \x7b\"scores\": [\x7b\"index\": 0, \"score\": 8\x7d, ...]\x7d\n"
    ++ "Score 1-10 where 10 = directly answers the question."

/-- `rerank_with_llm(query, chunks, top_k)`: a parse failure or call
failure is caught and degrades to `chunks[:top_k]`.  The score dict
comprehension lets later duplicate indices overwrite earlier ones,
hence the reverse-`find?`; missing indices score 0; the sort is
Python's stable `sorted(..., reverse=True)` on scores. -/
def rerank_with_llm (env : Env) (query : String) (chunks : List Chunk) (top_k : Nat) :
    List Chunk × List Event :=
  if chunks.length = 0 ∨ chunks.length ≤ top_k then (chunks.take top_k, [])
  else
    match env.llmScores (mkLlmPrompt query chunks) with
    | .error _ => (chunks.take top_k, [.llmCall])
    | .ok scores =>
      let scoreOf : Nat → Int := fun i =>
        (((scores.reverse).find? (fun s => s.1 = i)).map Prod.snd).getD 0
      let scored := (List.range chunks.length).map (fun i => (i, scoreOf i))
      let sortedScores := List.insertionSort (keyDesc Prod.snd) scored
      ((sortedScores.take top_k).map (fun p => chunks.getD p.1 default), [.llmCall])

/-- `rerank(query, chunks, top_k)`: Cohere first; a `None` result falls
through to the GPT-4o-mini reranker. -/
def rerank (env : Env) (query : String) (chunks : List Chunk) (top_k : Nat) :
    List Chunk × List Event :=
  match rerank_cohere env query chunks top_k with
  | (some r, ev) => (r, ev)
  | (none, ev) =>
    let r2 := rerank_with_llm env query chunks top_k
    (r2.1, ev ++ r2.2)

/-! ## Retrieval orchestrator (`retrieve`) -/

/-- The body of `retrieve` after tag-scope resolution.  `embed_query`
and `vector_search` have no `try/except` in the source, so their
failures propagate as `Except.error`. -/
def retrieveCore (env : Env) (query : String) (top_k : Nat)
    (project_id : Option String) (doc_ids : Option (List Nat)) (ev0 : List Event) :
    Except Unit (List Chunk) × List Event :=
  match env.embedQuery query with
  | .error e => (.error e, ev0 ++ [.embed query])
  | .ok embedding =>
    let fetch_k := if doc_ids.getD [] ≠ [] then top_k * 6 else top_k * 3
    match env.vecSearchRpc embedding fetch_k (3/10) project_id with
    | .error e => (.error e, ev0 ++ [.embed query, .vecSearch fetch_k])
    | .ok vec_results =>
      let kw_results := keyword_search env query fetch_k project_id doc_ids
      let vec_results := match doc_ids with
        | some ids => vec_results.filter (fun c => c.document_id ∈ ids)
        | none => vec_results
      let fused := rrf_fuse vec_results kw_results
      let rr := rerank env query (fused.take 15) top_k
      (.ok rr.1, ev0 ++ [.embed query, .vecSearch fetch_k, .kwSearch fetch_k] ++ rr.2)

/-- `retrieve(query, top_k, project_id, tags)` from
`backend/retrieval.py`.  `if tags:` is Python truthiness, so both
`None` and `[]` skip tag-scope resolution; `_get_tagged_doc_ids` runs
its Supabase queries outside any `try/except`, so a tag-resolution
failure propagates as `Except.error`; an empty resolved scope
short-circuits to `[]` before any further provider call. -/
def retrieve (env : Env) (query : String) (top_k : Nat)
    (project_id : Option String) (tags : Option (List String)) :
    Except Unit (List Chunk) × List Event :=
  let tagList := tags.getD []
  if tagList ≠ [] then
    match env.taggedDocIds tagList project_id with
    | .error e => (.error e, [.resolveTags tagList project_id])
    | .ok docIds =>
      if docIds = [] then (.ok [], [.resolveTags tagList project_id])
      else retrieveCore env query top_k project_id (some docIds) [.resolveTags tagList project_id]
  else
    retrieveCore env query top_k project_id none []

/-! ## Chunker lemmas: length bounds -/

theorem length_pyStrip_le (l : List Char) : (pyStrip l).length ≤ l.length := by
  unfold pyStrip
  have h1 := dropWhile_len_le pyIsSpace l
  have h2 := dropWhile_len_le pyIsSpace (l.dropWhile pyIsSpace).reverse
  simp only [List.length_reverse] at *
  omega

theorem mem_charSlices_length_le {limit : Nat} :
    ∀ (l p : List Char), p ∈ charSlices limit l → p.length ≤ max limit 1
  | [], p, hp => by simp [charSlices] at hp
  | c :: rest, p, hp => by
    rw [charSlices] at hp
    rcases List.mem_cons.mp hp with h | h
    · subst h
      simp only [List.length_take]
      omega
    · exact mem_charSlices_length_le _ p h
termination_by l _ _ => l.length
decreasing_by simp only [List.length_drop, List.length_cons]; omega

theorem splitLongStep_inv {limit : Nat} {res : List (List Char)} {cur : List Char}
    (sent : List Char)
    (h1 : ∀ p ∈ res, p.length ≤ max limit 1) (h2 : cur.length ≤ limit) :
    (∀ p ∈ (splitLongStep limit (res, cur) sent).1, p.length ≤ max limit 1) ∧
      (splitLongStep limit (res, cur) sent).2.length ≤ limit := by
  have hstrip : (pyStrip cur).length ≤ max limit 1 :=
    Nat.le_trans (Nat.le_trans (length_pyStrip_le _) h2) (Nat.le_max_left _ _)
  unfold splitLongStep
  by_cases hlong : limit < sent.length
  · simp only [hlong, if_pos]
    refine ⟨?_, by simp⟩
    intro p hp
    rcases List.mem_append.mp hp with hp | hp
    · by_cases hcur : cur = []
      · simp only [hcur, ne_eq, not_true_eq_false, if_false] at hp
        exact h1 p hp
      · simp only [ne_eq, hcur, not_false_eq_true, if_true] at hp
        rcases List.mem_append.mp hp with hp | hp
        · exact h1 p hp
        · simp only [List.mem_singleton] at hp
          subst hp
          exact hstrip
    · obtain ⟨q, hq, rfl⟩ := List.mem_map.mp hp
      exact Nat.le_trans (length_pyStrip_le _) (mem_charSlices_length_le _ _ hq)
  · simp only [hlong, if_neg, if_false]
    by_cases hfit : cur.length + sent.length + 1 ≤ limit
    · simp only [hfit, if_pos]
      refine ⟨h1, ?_⟩
      by_cases hcur : cur = []
      · simp only [hcur, ne_eq, not_true_eq_false, if_false]
        omega
      · simp only [ne_eq, hcur, not_false_eq_true, if_true, List.length_append,
          List.length_cons]
        omega
    · simp only [hfit, if_neg, if_false]
      refine ⟨?_, by omega⟩
      intro p hp
      by_cases hcur : cur = []
      · simp only [hcur, ne_eq, not_true_eq_false, if_false] at hp
        exact h1 p hp
      · simp only [ne_eq, hcur, not_false_eq_true, if_true] at hp
        rcases List.mem_append.mp hp with hp | hp
        · exact h1 p hp
        · simp only [List.mem_singleton] at hp
          subst hp
          exact hstrip

theorem mem_splitLongStep_fold {limit : Nat} (sents : List (List Char)) :
    ∀ st : List (List Char) × List Char,
      (∀ p ∈ st.1, p.length ≤ max limit 1) → st.2.length ≤ limit →
      (∀ p ∈ (sents.foldl (splitLongStep limit) st).1,
          p.length ≤ max limit 1) ∧
        (sents.foldl (splitLongStep limit) st).2.length ≤ limit := by
  induction sents with
  | nil => intro st h1 h2; exact ⟨h1, h2⟩
  | cons sent rest ih =>
    intro st h1 h2
    obtain ⟨res, cur⟩ := st
    simp only [List.foldl_cons]
    obtain ⟨g1, g2⟩ := splitLongStep_inv sent h1 h2
    exact ih _ g1 g2

theorem mem_sentencePack_length_le {limit : Nat} {sents : List (List Char)}
    {p : List Char} (hp : p ∈ sentencePack limit sents) : p.length ≤ max limit 1 := by
  have base := @mem_splitLongStep_fold limit sents ([], [])
    (by simp) (by simp)
  unfold sentencePack at hp
  split at hp
  · rcases List.mem_append.mp hp with h | h
    · exact base.1 p h
    · simp only [List.mem_singleton] at h
      subst h
      exact Nat.le_trans (Nat.le_trans (length_pyStrip_le _) base.2) (Nat.le_max_left _ _)
  · exact base.1 p hp

theorem mem_split_long_length_le {t : List Char} {limit : Nat} {p : List Char}
    (hp : p ∈ split_long t limit) : p.length ≤ max limit 1 := by
  unfold split_long at hp
  split at hp
  · simp only [List.mem_singleton] at hp
    subst hp
    rename_i h
    omega
  · split at hp
    · exact mem_sentencePack_length_le hp
    · obtain ⟨q, hq, rfl⟩ := List.mem_map.mp hp
      exact Nat.le_trans (length_pyStrip_le _) (mem_charSlices_length_le _ _ hq)

theorem mem_foldr_append {α β : Type} (f : α → List β) (l : List α) (c : β) :
    c ∈ l.foldr (fun x acc => f x ++ acc) [] ↔ ∃ x ∈ l, c ∈ f x := by
  induction l with
  | nil => simp
  | cons x rest ih => simp [ih]

/-- The ceiling invariant: every chunk `chunk_text` returns is at most
`max_token_chars = 18000` characters, for every input and `max_chars`
(the defensive final pass re-splits any longer survivor). -/
theorem chunk_text_le_hard (text : List Char) (max_chars : Nat) :
    ∀ c ∈ chunk_text text max_chars, c.length ≤ 18000 := by
  intro c hc
  unfold chunk_text at hc
  rw [mem_foldr_append] at hc
  obtain ⟨x, _, hcx⟩ := hc
  split at hcx
  · have := mem_split_long_length_le hcx
    simpa [max_token_chars] using this
  · rename_i hxle
    simp only [List.mem_singleton] at hcx
    subst hcx
    simp only [max_token_chars, Nat.not_lt] at hxle
    exact hxle

/-! ## Chunker lemmas: symbolic evaluation on separator-free text -/

theorem dropWhile_eq_self_of_forall {p : Char → Bool} :
    ∀ {l : List Char}, (∀ c ∈ l, p c = false) → l.dropWhile p = l := by
  intro l h
  cases l with
  | nil => rfl
  | cons c rest =>
    rw [List.dropWhile_cons]
    simp [h c (by simp)]

theorem pyStrip_of_no_space {l : List Char} (h : ∀ c ∈ l, pyIsSpace c = false) :
    pyStrip l = l := by
  unfold pyStrip
  rw [dropWhile_eq_self_of_forall h,
    dropWhile_eq_self_of_forall (by intro c hc; exact h c (List.mem_reverse.mp hc)),
    List.reverse_reverse]

theorem dropWhile_cons_of_neg {p : Char → Bool} {c : Char} {l : List Char}
    (h : p c = false) : (c :: l).dropWhile p = c :: l := by
  rw [List.dropWhile_cons]
  simp [h]

theorem pyStrip_eq_self_of_ends {l : List Char} {c d : Char}
    (hh : l.head? = some c) (hc : pyIsSpace c = false)
    (hl : l.getLast? = some d) (hd : pyIsSpace d = false) :
    pyStrip l = l := by
  cases l with
  | nil => simp at hh
  | cons x xs =>
    rw [List.head?_cons, Option.some.injEq] at hh
    unfold pyStrip
    rw [dropWhile_cons_of_neg (by rw [hh]; exact hc)]
    have hrev : ((x :: xs).reverse).head? = some d := by
      rw [List.head?_reverse]; exact hl
    cases hr : (x :: xs).reverse with
    | nil => simp [hr] at hrev
    | cons y ys =>
      rw [hr, List.head?_cons, Option.some.injEq] at hrev
      rw [dropWhile_cons_of_neg (by rw [hrev]; exact hd), ← hr,
        List.reverse_reverse]

theorem splitParasGo_no_sep :
    ∀ (l : List Char), (∀ c ∈ l, ¬c = '\n') → ∀ acc,
      splitParasGo l acc = [acc.reverse ++ l] := by
  intro l
  induction l with
  | nil => intro _ acc; simp [splitParasGo]
  | cons c l' ih =>
    intro h acc
    have hc : ¬c = '\n' := h c (by simp)
    cases l' with
    | nil => simp [splitParasGo]
    | cons d rest =>
      rw [splitParasGo]
      rw [if_neg (by simp [hc])]
      rw [ih (by intro x hx; exact h x (by simp [hx])) (c :: acc)]
      simp

theorem splitParasGo_append :
    ∀ (l : List Char), (∀ c ∈ l, ¬c = '\n') → ∀ (acc rest : List Char),
      splitParasGo (l ++ '\n' :: '\n' :: rest) acc =
        (acc.reverse ++ l) :: splitParasGo rest [] := by
  intro l
  induction l with
  | nil =>
    intro _ acc rest
    rw [List.nil_append, splitParasGo]
    simp
  | cons c l' ih =>
    intro h acc rest
    have hc : ¬c = '\n' := h c (by simp)
    cases l' with
    | nil =>
      rw [List.cons_append, List.nil_append, splitParasGo]
      rw [if_neg (by simp [hc])]
      rw [splitParasGo]
      simp
    | cons d rest' =>
      rw [List.cons_append, List.cons_append, splitParasGo]
      rw [if_neg (by simp [hc])]
      rw [← List.cons_append, ih (by intro x hx; exact h x (by simp [hx])) (c :: acc) rest]
      simp

theorem splitSentGo_no_end :
    ∀ (l : List Char), (∀ c ∈ l, isSentEnd c = false) → ∀ acc,
      splitSentGo l acc = [acc.reverse ++ l] := by
  intro l
  induction l with
  | nil => intro _ acc; simp [splitSentGo]
  | cons c l' ih =>
    intro h acc
    have hc : isSentEnd c = false := h c (by simp)
    cases l' with
    | nil => simp [splitSentGo]
    | cons d rest =>
      rw [splitSentGo]
      simp only [hc, Bool.false_and, Bool.false_eq_true, if_false]
      rw [ih (by intro x hx; exact h x (by simp [hx])) (c :: acc)]
      simp

theorem charSlices_of_ne_nil {limit : Nat} {l : List Char} (h : l ≠ []) :
    charSlices limit l =
      l.take (max limit 1) :: charSlices limit (l.drop (max limit 1)) := by
  cases l with
  | nil => exact absurd rfl h
  | cons c rest => rw [charSlices]

/-! ## Chunker: evaluation on the 25000-character break-free paragraph -/

theorem rep_no_nl (n : Nat) : ∀ c ∈ List.replicate n 'a', ¬c = '\n' := by
  intro c hc
  rw [List.eq_of_mem_replicate hc]
  decide

theorem rep_no_space (n : Nat) : ∀ c ∈ List.replicate n 'a', pyIsSpace c = false := by
  intro c hc
  rw [List.eq_of_mem_replicate hc]
  decide

theorem rep_no_sentEnd (n : Nat) : ∀ c ∈ List.replicate n 'a', isSentEnd c = false := by
  intro c hc
  rw [List.eq_of_mem_replicate hc]
  decide

theorem rep_ne_nil {α : Type} {n : Nat} (a : α) (hn : n ≠ 0) :
    List.replicate n a ≠ [] := by
  intro h
  have := congrArg List.length h
  rw [List.length_replicate, List.length_nil] at this
  exact hn this

theorem filter_cons_pos {α : Type} (p : α → Bool) (a : α) (l : List α)
    (h : p a = true) : (a :: l).filter p = a :: l.filter p := by
  simp [List.filter, h]

theorem filter_cons_neg {α : Type} (p : α → Bool) (a : α) (l : List α)
    (h : p a = false) : (a :: l).filter p = l.filter p := by
  simp [List.filter, h]

theorem foldl_one {σ χ : Type} (f : σ → χ → σ) (b : σ) (x : χ) :
    List.foldl f b [x] = f b x := rfl

theorem foldl_pair {σ χ : Type} (f : σ → χ → σ) (b : σ) (x y : χ) :
    List.foldl f b [x, y] = f (f b x) y := rfl

theorem foldr_two {σ χ : Type} (f : χ → σ → σ) (b : σ) (x y : χ) :
    List.foldr f b [x, y] = f x (f y b) := rfl

theorem filter_eq_self_of_forall {α : Type} (p : α → Bool) :
    ∀ l : List α, (∀ a ∈ l, p a = true) → l.filter p = l := by
  intro l h
  induction l with
  | nil => rfl
  | cons a rest ih =>
    simp only [List.filter, h a (by simp)]
    rw [ih (by intro x hx; exact h x (by simp [hx]))]

theorem chunkParas_rep (n : Nat) (hn : n ≠ 0) :
    chunkParas (List.replicate n 'a') = [List.replicate n 'a'] := by
  unfold chunkParas splitParas
  rw [splitParasGo_no_sep _ (rep_no_nl n) []]
  simp only [List.reverse_nil, List.nil_append, List.map_cons, List.map_nil,
    pyStrip_of_no_space (rep_no_space n)]
  rw [filter_cons_pos (fun x => decide (x ≠ [])) (List.replicate n 'a') []
    (decide_eq_true (rep_ne_nil 'a' hn)), List.filter_nil]

theorem split_by_sentences_rep (n : Nat) (hn : n ≠ 0) :
    split_by_sentences (List.replicate n 'a') = [List.replicate n 'a'] := by
  unfold split_by_sentences
  rw [splitSentGo_no_end _ (rep_no_sentEnd n) []]
  simp only [List.reverse_nil, List.nil_append, List.map_cons, List.map_nil,
    pyStrip_of_no_space (rep_no_space n)]
  rw [filter_cons_pos (fun x => decide (x ≠ [])) (List.replicate n 'a') []
    (decide_eq_true (rep_ne_nil 'a' hn)), List.filter_nil]

theorem charSlices_nil (limit : Nat) : charSlices limit ([] : List Char) = [] := by
  rw [charSlices]

theorem charSlices_rep25000 :
    charSlices 18000 (List.replicate 25000 'a') =
      [List.replicate 18000 'a', List.replicate 7000 'a'] := by
  rw [charSlices_of_ne_nil (rep_ne_nil 'a' (by norm_num))]
  rw [show max 18000 1 = 18000 from by omega]
  rw [List.take_replicate, List.drop_replicate]
  rw [show min 18000 25000 = 18000 from by omega,
    show (25000 - 18000 : Nat) = 7000 from by norm_num]
  rw [charSlices_of_ne_nil (rep_ne_nil 'a' (by norm_num))]
  rw [show max 18000 1 = 18000 from by omega]
  rw [List.take_replicate, List.drop_replicate]
  rw [show min 18000 7000 = 7000 from by omega,
    show (7000 - 18000 : Nat) = 0 from by norm_num]
  rw [List.replicate_zero, charSlices_nil]

theorem split_long_rep25000 :
    split_long (List.replicate 25000 'a') 18000 =
      [List.replicate 18000 'a', List.replicate 7000 'a'] := by
  unfold split_long
  rw [if_neg (by rw [List.length_replicate]; norm_num)]
  rw [split_by_sentences_rep 25000 (by norm_num)]
  rw [if_neg (by norm_num)]
  rw [charSlices_rep25000]
  simp only [List.map_cons, List.map_nil,
    pyStrip_of_no_space (rep_no_space 18000), pyStrip_of_no_space (rep_no_space 7000)]

theorem chunk_text_rep25000 :
    chunk_text (List.replicate 25000 'a') 2000 =
      [List.replicate 18000 'a', List.replicate 7000 'a'] := by
  have s1 : packStep 2000 ([], []) (List.replicate 18000 'a') =
      ([], List.replicate 18000 'a') := by
    unfold packStep
    rw [if_neg (by rw [List.length_nil, List.length_replicate]; norm_num)]
    rw [if_neg (not_not_intro rfl)]
  have s2 : packStep 2000 ([], List.replicate 18000 'a') (List.replicate 7000 'a') =
      ([List.replicate 18000 'a'], List.replicate 7000 'a') := by
    unfold packStep
    rw [if_neg (by rw [List.length_replicate, List.length_replicate]; norm_num)]
    rw [if_pos (by exact rep_ne_nil 'a' (by norm_num))]
    rw [pyStrip_of_no_space (rep_no_space 18000)]
    rfl
  have hpack : packLoop 2000 (List.replicate 25000 'a') =
      ([List.replicate 18000 'a'], List.replicate 7000 'a') := by
    unfold packLoop
    rw [chunkParas_rep 25000 (by norm_num)]
    rw [foldl_one]
    unfold paraStep
    rw [if_pos (by rw [List.length_replicate]; norm_num [max_token_chars])]
    rw [show max_token_chars = 18000 from rfl, split_long_rep25000]
    rw [foldl_pair, s1, s2]
  have hflush : flushedChunks 2000 (List.replicate 25000 'a') =
      [List.replicate 18000 'a', List.replicate 7000 'a'] := by
    unfold flushedChunks
    rw [hpack]
    rw [if_pos (by exact rep_ne_nil 'a' (by norm_num))]
    rw [pyStrip_of_no_space (rep_no_space 7000)]
    rfl
  have hfil : List.filter (fun c => 50 < c.length)
      [List.replicate 18000 'a', List.replicate 7000 'a'] =
      [List.replicate 18000 'a', List.replicate 7000 'a'] := by
    apply filter_eq_self_of_forall
    intro a ha
    rcases List.mem_cons.mp ha with h | h
    · subst h
      show decide (50 < (List.replicate 18000 'a').length) = true
      exact decide_eq_true (by rw [List.length_replicate]; norm_num)
    · rcases List.mem_cons.mp h with h2 | h2
      · subst h2
        show decide (50 < (List.replicate 7000 'a').length) = true
        exact decide_eq_true (by rw [List.length_replicate]; norm_num)
      · simp at h2
  unfold chunk_text
  rw [hflush, hfil, foldr_two]
  rw [if_neg (by rw [List.length_replicate]; norm_num [max_token_chars])]
  rw [if_neg (by rw [List.length_replicate]; norm_num [max_token_chars])]
  rfl

/-- C4: every chunk returned by `chunk_text` is at most
`hard_limit = 18000` characters; the single break-free paragraph of
25,000 characters is split into `⌈25000/18000⌉ = 2` pieces, each at
most 18000 characters. -/
theorem hard_limit_ceiling_claim :
    (∀ (text : List Char) (max_chars : Nat),
        ∀ c ∈ chunk_text text max_chars, c.length ≤ 18000)
    ∧ (chunk_text (List.replicate 25000 'a') 2000).length = 2
    ∧ ∀ c ∈ chunk_text (List.replicate 25000 'a') 2000, c.length ≤ 18000 := by
  refine ⟨chunk_text_le_hard, ?_, ?_⟩
  · rw [chunk_text_rep25000]; rfl
  · exact chunk_text_le_hard _ _

/-- Witness for C4 at a concrete chunk of the 25000-character input. -/
theorem hard_limit_ceiling_claim_witness :
    (List.replicate 18000 'a').length ≤ 18000 :=
  hard_limit_ceiling_claim.1 (List.replicate 25000 'a') 2000 _
    (by rw [chunk_text_rep25000]; exact List.mem_cons_self _ _)

/-! ## Chunker: the two-paragraph example (C6) -/

/-- The spec's two-paragraph example input. -/
def c6input : List Char := "Paragraph A.\n\nParagraph B.".toList

theorem c6paras : chunkParas c6input =
    ["Paragraph A.".toList, "Paragraph B.".toList] := by
  unfold chunkParas splitParas c6input
  rw [show ("Paragraph A.\n\nParagraph B.".toList) =
      ("Paragraph A.".toList ++ '\n' :: '\n' :: "Paragraph B.".toList) from rfl]
  rw [splitParasGo_append ("Paragraph A.".toList) (by decide) [] _]
  rw [splitParasGo_no_sep ("Paragraph B.".toList) (by decide) []]
  decide

theorem c6eval : chunk_text c6input 2000 = [] := by
  unfold chunk_text flushedChunks packLoop
  rw [c6paras]
  decide

/-- C6 counterexample: the claimed result `["Paragraph A.\n\nParagraph B."]`
is not what `chunk_text` returns — the merged 26-character buffer is
dropped by the `len(c) > 50` minimum-length filter. -/
theorem para_join_counterexample :
    chunk_text c6input 2000 ≠ ["Paragraph A.\n\nParagraph B.".toList] := by
  rw [c6eval]
  decide

/-- C6 amended: both paragraphs are packed into one buffer, but the
26-character result is below the 50-character minimum and is filtered
out, so `chunk_text` returns `[]`. -/
theorem para_join_filtered : chunk_text c6input 2000 = [] := c6eval

/-! ## Chunker: minimum retained length (C7) -/

theorem foldr_one {σ χ : Type} (f : χ → σ → σ) (b : σ) (x : χ) :
    List.foldr f b [x] = f x b := rfl

theorem forall_mem_replicate {α : Type} {P : α → Prop} {n : Nat} {a : α}
    (h : P a) : ∀ c ∈ List.replicate n a, P c :=
  fun _ hc => (List.eq_of_mem_replicate hc) ▸ h

theorem packStep_bound {mc : Nat} (hmc : mc ≤ 18000)
    {st : List (List Char) × List Char} {pc : List Char}
    (h1 : ∀ p ∈ st.1, p.length ≤ 18000) (h2 : st.2.length ≤ 18000)
    (hpc : pc.length ≤ 18000) :
    (∀ p ∈ (packStep mc st pc).1, p.length ≤ 18000) ∧
      (packStep mc st pc).2.length ≤ 18000 := by
  unfold packStep
  by_cases hfit : st.2.length + pc.length + 2 ≤ mc
  · simp only [hfit, if_pos]
    refine ⟨h1, ?_⟩
    by_cases hcur : st.2 = []
    · simp only [hcur, ne_eq, not_true_eq_false, if_false]
      exact hpc
    · simp only [ne_eq, hcur, not_false_eq_true, if_true, List.length_append,
        List.length_cons]
      omega
  · simp only [hfit, if_neg, if_false]
    refine ⟨?_, hpc⟩
    intro p hp
    by_cases hcur : st.2 = []
    · simp only [hcur, ne_eq, not_true_eq_false, if_false] at hp
      exact h1 p hp
    · simp only [ne_eq, hcur, not_false_eq_true, if_true] at hp
      rcases List.mem_append.mp hp with hp | hp
      · exact h1 p hp
      · simp only [List.mem_singleton] at hp
        subst hp
        exact Nat.le_trans (length_pyStrip_le _) h2

theorem packFold_bound {mc : Nat} (hmc : mc ≤ 18000) :
    ∀ (pcs : List (List Char)), (∀ pc ∈ pcs, pc.length ≤ 18000) →
    ∀ st : List (List Char) × List Char,
      (∀ p ∈ st.1, p.length ≤ 18000) → st.2.length ≤ 18000 →
      (∀ p ∈ (pcs.foldl (packStep mc) st).1, p.length ≤ 18000) ∧
        (pcs.foldl (packStep mc) st).2.length ≤ 18000 := by
  intro pcs
  induction pcs with
  | nil => intro _ st h1 h2; exact ⟨h1, h2⟩
  | cons pc rest ih =>
    intro hall st h1 h2
    simp only [List.foldl_cons]
    obtain ⟨g1, g2⟩ := packStep_bound hmc h1 h2 (hall pc (by simp))
    exact ih (by intro x hx; exact hall x (by simp [hx])) _ g1 g2

theorem paraStep_bound {mc : Nat} (hmc : mc ≤ 18000)
    {st : List (List Char) × List Char} (para : List Char)
    (h1 : ∀ p ∈ st.1, p.length ≤ 18000) (h2 : st.2.length ≤ 18000) :
    (∀ p ∈ (paraStep mc st para).1, p.length ≤ 18000) ∧
      (paraStep mc st para).2.length ≤ 18000 := by
  unfold paraStep
  by_cases hlong : max_token_chars < para.length
  · simp only [hlong, if_pos]
    refine packFold_bound hmc _ ?_ st h1 h2
    intro pc hpc
    have := mem_split_long_length_le hpc
    simpa [max_token_chars] using this
  · simp only [hlong, if_neg, if_false]
    exact packStep_bound hmc h1 h2 (by simp only [max_token_chars, Nat.not_lt] at hlong; exact hlong)

theorem paraFold_bound {mc : Nat} (hmc : mc ≤ 18000) :
    ∀ (paras : List (List Char)) (st : List (List Char) × List Char),
      (∀ p ∈ st.1, p.length ≤ 18000) → st.2.length ≤ 18000 →
      (∀ p ∈ (paras.foldl (paraStep mc) st).1, p.length ≤ 18000) ∧
        (paras.foldl (paraStep mc) st).2.length ≤ 18000 := by
  intro paras
  induction paras with
  | nil => intro st h1 h2; exact ⟨h1, h2⟩
  | cons para rest ih =>
    intro st h1 h2
    simp only [List.foldl_cons]
    obtain ⟨g1, g2⟩ := paraStep_bound hmc para h1 h2
    exact ih _ g1 g2

theorem flushedChunks_bound {mc : Nat} (hmc : mc ≤ 18000) (text : List Char) :
    ∀ p ∈ flushedChunks mc text, p.length ≤ 18000 := by
  intro p hp
  have base := paraFold_bound hmc (chunkParas text) ([], []) (by simp) (by simp)
  unfold flushedChunks packLoop at hp
  split at hp
  · rcases List.mem_append.mp hp with h | h
    · exact base.1 p h
    · simp only [List.mem_singleton] at h
      subst h
      exact Nat.le_trans (length_pyStrip_le _) base.2
  · exact base.1 p hp

/-- C7 amended (general part): whenever `max_chars ≤ 18000` — in
particular at the default 2000 — every chunk `chunk_text` returns is
strictly longer than 50 characters; there is no only-content exception
(a sole short chunk is dropped, yielding `[]`), and the defensive
re-split never fires because no packed chunk can exceed 18000. -/
theorem min_retained_amended (text : List Char) (mc : Nat) (hmc : mc ≤ 18000) :
    ∀ c ∈ chunk_text text mc, 50 < c.length := by
  intro c hc
  unfold chunk_text at hc
  rw [mem_foldr_append] at hc
  obtain ⟨x, hxmem, hcx⟩ := hc
  have hx := List.mem_filter.mp hxmem
  have hxlen : 50 < x.length := of_decide_eq_true hx.2
  have hxbound : x.length ≤ 18000 := flushedChunks_bound hmc text x hx.1
  rw [if_neg (by simp only [max_token_chars, Nat.not_lt]; exact hxbound)] at hcx
  simp only [List.mem_singleton] at hcx
  subst hcx
  exact hxlen

/-! ## C7 counterexample: a defensive re-split reintroduces a short chunk -/

/-- 17000 `a`s, a blank line, 1028 `b`s: packs into one 18030-character
chunk when `max_chars = 20000`. -/
def c7input : List Char :=
  List.replicate 17000 'a' ++ '\n' :: '\n' :: List.replicate 1028 'b'

/-- The first slice of the defensive hard split of the packed chunk. -/
def c7piece1 : List Char :=
  List.replicate 17000 'a' ++ '\n' :: '\n' :: List.replicate 998 'b'

theorem c7input_length : c7input.length = 18030 := by
  unfold c7input
  rw [List.length_append, List.length_cons, List.length_cons,
    List.length_replicate, List.length_replicate]

theorem c7input_ne_nil : c7input ≠ [] := by
  intro h
  have := congrArg List.length h
  rw [c7input_length] at this
  norm_num at this

theorem head_append_rep {n : Nat} (hn : n ≠ 0) (a : Char) (tail : List Char) :
    (List.replicate n a ++ tail).head? = some a := by
  cases n with
  | zero => exact absurd rfl hn
  | succ m => rw [List.replicate_succ, List.cons_append, List.head?_cons]

theorem getLast_append_rep {n : Nat} (hn : n ≠ 0) (b : Char) (front : List Char) :
    (front ++ List.replicate n b).getLast? = some b := by
  cases n with
  | zero => exact absurd rfl hn
  | succ m =>
    rw [List.getLast?_append_of_ne_nil front (rep_ne_nil b (by omega))]
    rw [List.replicate_succ', List.getLast?_concat]

theorem c7strip : pyStrip c7input = c7input := by
  have hh : c7input.head? = some 'a' := head_append_rep (by norm_num) 'a' _
  have hl : c7input.getLast? = some 'b' := by
    unfold c7input
    rw [List.getLast?_append_of_ne_nil _ (List.cons_ne_nil _ _)]
    rw [show ('\n' :: '\n' :: List.replicate 1028 'b') =
        ['\n', '\n'] ++ List.replicate 1028 'b' from rfl]
    exact getLast_append_rep (by norm_num) 'b' _
  exact pyStrip_eq_self_of_ends hh (by decide) hl (by decide)

theorem c7piece1_strip : pyStrip c7piece1 = c7piece1 := by
  have hh : c7piece1.head? = some 'a' := head_append_rep (by norm_num) 'a' _
  have hl : c7piece1.getLast? = some 'b' := by
    unfold c7piece1
    rw [List.getLast?_append_of_ne_nil _ (List.cons_ne_nil _ _)]
    rw [show ('\n' :: '\n' :: List.replicate 998 'b') =
        ['\n', '\n'] ++ List.replicate 998 'b' from rfl]
    exact getLast_append_rep (by norm_num) 'b' _
  exact pyStrip_eq_self_of_ends hh (by decide) hl (by decide)

theorem c7paras : chunkParas c7input =
    [List.replicate 17000 'a', List.replicate 1028 'b'] := by
  unfold chunkParas splitParas c7input
  rw [splitParasGo_append (List.replicate 17000 'a')
    (forall_mem_replicate (by decide)) [] _]
  rw [splitParasGo_no_sep (List.replicate 1028 'b')
    (forall_mem_replicate (by decide)) []]
  have hs1 : pyStrip (List.replicate 17000 'a') = List.replicate 17000 'a' :=
    pyStrip_of_no_space (forall_mem_replicate (by decide))
  have hs2 : pyStrip (List.replicate 1028 'b') = List.replicate 1028 'b' :=
    pyStrip_of_no_space (forall_mem_replicate (by decide))
  simp only [List.reverse_nil, List.nil_append, List.map_cons, List.map_nil, hs1, hs2]
  apply filter_eq_self_of_forall
  intro a ha
  rcases List.mem_cons.mp ha with h | h
  · subst h
    show decide (List.replicate 17000 'a' ≠ []) = true
    exact decide_eq_true (rep_ne_nil 'a' (by norm_num))
  · rcases List.mem_cons.mp h with h2 | h2
    · subst h2
      show decide (List.replicate 1028 'b' ≠ []) = true
      exact decide_eq_true (rep_ne_nil 'b' (by norm_num))
    · simp at h2

theorem c7pack : packLoop 20000 c7input = ([], c7input) := by
  have p1 : paraStep 20000 ([], []) (List.replicate 17000 'a') =
      ([], List.replicate 17000 'a') := by
    unfold paraStep
    rw [if_neg (by rw [List.length_replicate]; norm_num [max_token_chars])]
    unfold packStep
    rw [if_pos (by rw [List.length_nil, List.length_replicate]; norm_num)]
    rw [if_neg (not_not_intro rfl)]
  have p2 : paraStep 20000 ([], List.replicate 17000 'a') (List.replicate 1028 'b') =
      ([], c7input) := by
    unfold paraStep
    rw [if_neg (by rw [List.length_replicate]; norm_num [max_token_chars])]
    unfold packStep
    rw [if_pos (by rw [List.length_replicate, List.length_replicate]; norm_num)]
    rw [if_pos (rep_ne_nil 'a' (by norm_num))]
    rfl
  unfold packLoop
  rw [c7paras, foldl_pair, p1, p2]

theorem c7flush : flushedChunks 20000 c7input = [c7input] := by
  unfold flushedChunks
  rw [c7pack]
  rw [if_pos c7input_ne_nil]
  rw [c7strip]
  rfl

theorem c7sentences : split_by_sentences c7input = [c7input] := by
  have hnoEnd : ∀ c ∈ c7input, isSentEnd c = false := by
    intro c hc
    unfold c7input at hc
    rcases List.mem_append.mp hc with h | h
    · rw [List.eq_of_mem_replicate h]; decide
    · rcases List.mem_cons.mp h with h2 | h2
      · subst h2; decide
      · rcases List.mem_cons.mp h2 with h3 | h3
        · subst h3; decide
        · rw [List.eq_of_mem_replicate h3]; decide
  unfold split_by_sentences
  rw [splitSentGo_no_end c7input hnoEnd []]
  simp only [List.reverse_nil, List.nil_append, List.map_cons, List.map_nil, c7strip]
  apply filter_eq_self_of_forall
  intro a ha
  rcases List.mem_cons.mp ha with h | h
  · subst h
    show decide (c7input ≠ []) = true
    exact decide_eq_true c7input_ne_nil
  · simp at h

theorem c7slices : charSlices 18000 c7input =
    [c7piece1, List.replicate 30 'b'] := by
  have htail : ('\n' :: '\n' :: List.replicate 1028 'b') =
      ['\n', '\n'] ++ List.replicate 1028 'b' := rfl
  have htake : c7input.take 18000 = c7piece1 := by
    unfold c7input
    rw [htail, List.take_append_eq_append_take,
      List.take_of_length_le (by rw [List.length_replicate]; norm_num),
      List.length_replicate,
      show (18000 - 17000 : Nat) = 1000 from by norm_num,
      List.take_append_eq_append_take,
      List.take_of_length_le (by norm_num),
      show (['\n', '\n'] : List Char).length = 2 from rfl,
      show (1000 - 2 : Nat) = 998 from by norm_num,
      List.take_replicate,
      show min 998 1028 = 998 from by omega]
    rfl
  have hdrop : c7input.drop 18000 = List.replicate 30 'b' := by
    unfold c7input
    rw [htail, List.drop_append_eq_append_drop,
      List.drop_eq_nil_of_le (by rw [List.length_replicate]; norm_num),
      List.length_replicate,
      show (18000 - 17000 : Nat) = 1000 from by norm_num,
      List.drop_append_eq_append_drop,
      List.drop_eq_nil_of_le (by norm_num),
      show (['\n', '\n'] : List Char).length = 2 from rfl,
      show (1000 - 2 : Nat) = 998 from by norm_num,
      List.drop_replicate,
      show (1028 - 998 : Nat) = 30 from by norm_num]
    rfl
  rw [charSlices_of_ne_nil c7input_ne_nil,
    show max 18000 1 = 18000 from by omega, htake, hdrop]
  rw [charSlices_of_ne_nil (rep_ne_nil 'b' (by norm_num)),
    show max 18000 1 = 18000 from by omega,
    List.take_of_length_le (by rw [List.length_replicate]; norm_num),
    List.drop_eq_nil_of_le (by rw [List.length_replicate]; norm_num),
    charSlices_nil]

theorem c7split_long : split_long c7input 18000 =
    [c7piece1, List.replicate 30 'b'] := by
  unfold split_long
  rw [if_neg (by rw [c7input_length]; norm_num)]
  rw [c7sentences]
  rw [if_neg (by norm_num)]
  rw [c7slices]
  have hs30 : pyStrip (List.replicate 30 'b') = List.replicate 30 'b' :=
    pyStrip_of_no_space (forall_mem_replicate (by decide))
  simp only [List.map_cons, List.map_nil, c7piece1_strip, hs30]

theorem c7eval : chunk_text c7input 20000 = [c7piece1, List.replicate 30 'b'] := by
  unfold chunk_text
  rw [c7flush]
  rw [show List.filter (fun c => 50 < c.length) [c7input] = [c7input] from by
    apply filter_eq_self_of_forall
    intro a ha
    rcases List.mem_cons.mp ha with h | h
    · subst h
      show decide (50 < c7input.length) = true
      exact decide_eq_true (by rw [c7input_length]; norm_num)
    · simp at h]
  rw [foldr_one]
  rw [if_pos (by rw [c7input_length]; norm_num [max_token_chars])]
  rw [show max_token_chars = 18000 from rfl, c7split_long]
  rfl

/-- C7 counterexample: with `max_chars = 20000` the packed 18030-character
chunk survives the minimum-length filter and is then defensively
hard-split, producing a 30-character chunk that is both shorter than the
50-character minimum and not the only content. -/
theorem min_retained_counterexample :
    ¬ (∀ c ∈ chunk_text c7input 20000,
        50 ≤ c.length ∨ chunk_text c7input 20000 = [c]) := by
  intro h
  have h30 := h (List.replicate 30 'b')
    (by rw [c7eval]; exact List.mem_cons_of_mem _ (List.mem_cons_self _ _))
  rcases h30 with h1 | h1
  · rw [List.length_replicate] at h1
    norm_num at h1
  · rw [c7eval] at h1
    have := congrArg List.length h1
    simp at this

/-- Witness for the C7 amended theorem at a concrete input. -/
theorem min_retained_amended_witness :
    50 < (List.replicate 18000 'a').length :=
  min_retained_amended (List.replicate 25000 'a') 2000 (by norm_num) _
    (by rw [chunk_text_rep25000]; exact List.mem_cons_self _ _)

/-! ## Fusion lemmas: the accumulated score -/

/-- Spec-side description of the RRF accumulation: `weight/(K + r)`
summed over the 1-indexed ranks `r` at which chunk id `cid` occurs in a
list (the claim's & spec's wording, to be compared with `rrf_fuse`). -/
def specContrib (w : ℚ) (cid : Nat) : Nat → List Chunk → ℚ
  | _, [] => 0
  | r, c :: cs => (if c.id = cid then w / (RRF_K + r) else 0) + specContrib w cid (r + 1) cs

/-- Spec-side fused score of a chunk id: vector-list ranks at weight
0.6 plus keyword-list ranks at weight 0.4, `K = 60`. -/
def specScore (v k : List Chunk) (cid : Nat) : ℚ :=
  specContrib (3/5) cid 1 v + specContrib (2/5) cid 1 k

theorem lookupD_bump (x k : Nat) (w : ℚ) :
    ∀ m, lookupD x (bump k w m) = lookupD x m + (if k = x then w else 0) := by
  intro m
  induction m with
  | nil =>
    by_cases h : k = x
    · simp [bump, lookupD, h]
    · simp [bump, lookupD, h]
  | cons p rest ih =>
    obtain ⟨k', v⟩ := p
    unfold bump
    by_cases h : k = k'
    · subst h
      rw [if_pos rfl]
      by_cases hx : k = x
      · simp [lookupD, hx]
      · simp [lookupD, hx]
    · rw [if_neg h]
      by_cases hx : k' = x
      · have hkx : ¬k = x := fun e => h (e.trans hx.symm)
        simp [lookupD, hx, hkx]
      · simp [lookupD, hx, ih]

theorem keys_bump (k : Nat) (w : ℚ) :
    ∀ m, (bump k w m).map Prod.fst =
      if k ∈ m.map Prod.fst then m.map Prod.fst else m.map Prod.fst ++ [k] := by
  intro m
  induction m with
  | nil => simp [bump]
  | cons p rest ih =>
    obtain ⟨k', v⟩ := p
    unfold bump
    by_cases h : k = k'
    · rw [if_pos h]
      simp [h]
    · rw [if_neg h]
      simp only [List.map_cons, List.mem_cons]
      rw [ih]
      by_cases hmem : k ∈ rest.map Prod.fst
      · rw [if_pos hmem, if_pos (Or.inr hmem)]
      · rw [if_neg hmem, if_neg (by
          intro hor
          rcases hor with h1 | h1
          · exact h h1
          · exact hmem h1)]
        simp

theorem vecLoop_scores (w : ℚ) (x : Nat) :
    ∀ (cs : List Chunk) (r : Nat) (m : List (Nat × ℚ)) (cm : List (Nat × Chunk)),
      lookupD x ((vecLoop w r cs (m, cm)).1) = lookupD x m + specContrib w x r cs := by
  intro cs
  induction cs with
  | nil =>
    intro r m cm
    unfold vecLoop specContrib
    ring
  | cons c cs' ih =>
    intro r m cm
    rw [vecLoop, ih, lookupD_bump, specContrib]
    ring

theorem kwLoop_scores (w : ℚ) (x : Nat) :
    ∀ (cs : List Chunk) (r : Nat) (m : List (Nat × ℚ)) (cm : List (Nat × Chunk)),
      lookupD x ((kwLoop w r cs (m, cm)).1) = lookupD x m + specContrib w x r cs := by
  intro cs
  induction cs with
  | nil =>
    intro r m cm
    unfold kwLoop specContrib
    ring
  | cons c cs' ih =>
    intro r m cm
    rw [kwLoop, ih, lookupD_bump, specContrib]
    ring

/-! ## Fusion lemmas: dict keys and the chunk map -/

/-- Insertion order of the score dict's keys: ids in first-occurrence
order. -/
def idKeys : List Chunk → List Nat → List Nat
  | [], ks => ks
  | c :: cs, ks => idKeys cs (if c.id ∈ ks then ks else ks ++ [c.id])

theorem mem_keys_bump (x k : Nat) (w : ℚ) (m : List (Nat × ℚ)) :
    x ∈ (bump k w m).map Prod.fst ↔ x = k ∨ x ∈ m.map Prod.fst := by
  rw [keys_bump]
  by_cases h : k ∈ m.map Prod.fst
  · rw [if_pos h]
    constructor
    · exact Or.inr
    · rintro (h1 | h1)
      · subst h1; exact h
      · exact h1
  · rw [if_neg h]
    simp only [List.mem_append, List.mem_singleton]
    tauto

theorem vecLoop_keys (w : ℚ) :
    ∀ (cs : List Chunk) (r : Nat) (m : List (Nat × ℚ)) (cm : List (Nat × Chunk)),
      ((vecLoop w r cs (m, cm)).1).map Prod.fst = idKeys cs (m.map Prod.fst) := by
  intro cs
  induction cs with
  | nil => intro r m cm; rw [vecLoop, idKeys]
  | cons c cs' ih =>
    intro r m cm
    rw [vecLoop, ih, keys_bump, idKeys]

theorem kwLoop_keys (w : ℚ) :
    ∀ (cs : List Chunk) (r : Nat) (m : List (Nat × ℚ)) (cm : List (Nat × Chunk)),
      ((kwLoop w r cs (m, cm)).1).map Prod.fst = idKeys cs (m.map Prod.fst) := by
  intro cs
  induction cs with
  | nil => intro r m cm; rw [kwLoop, idKeys]
  | cons c cs' ih =>
    intro r m cm
    rw [kwLoop, ih, keys_bump, idKeys]

theorem mem_idKeys : ∀ (cs : List Chunk) (ks : List Nat) (x : Nat),
    x ∈ idKeys cs ks ↔ x ∈ ks ∨ x ∈ cs.map Chunk.id := by
  intro cs
  induction cs with
  | nil => intro ks x; rw [idKeys]; simp
  | cons c cs' ih =>
    intro ks x
    rw [idKeys, ih]
    by_cases h : c.id ∈ ks
    · rw [if_pos h]
      simp only [List.map_cons, List.mem_cons]
      constructor
      · rintro (h1 | h1)
        · exact Or.inl h1
        · exact Or.inr (Or.inr h1)
      · rintro (h1 | h1 | h1)
        · exact Or.inl h1
        · subst h1; exact Or.inl h
        · exact Or.inr h1
    · rw [if_neg h]
      simp only [List.mem_append, List.mem_singleton, List.map_cons, List.mem_cons]
      tauto

theorem idKeys_nodup : ∀ (cs : List Chunk) (ks : List Nat),
    ks.Nodup → (idKeys cs ks).Nodup := by
  intro cs
  induction cs with
  | nil => intro ks h; rw [idKeys]; exact h
  | cons c cs' ih =>
    intro ks h
    rw [idKeys]
    by_cases hmem : c.id ∈ ks
    · rw [if_pos hmem]; exact ih ks h
    · rw [if_neg hmem]
      refine ih _ ?_
      rw [List.nodup_append]
      exact ⟨h, List.nodup_singleton _, by
        intro a ha hb
        simp only [List.mem_singleton] at hb
        subst hb
        exact hmem ha⟩

theorem idKeys_extends : ∀ (cs : List Chunk) (ks : List Nat), List.Sublist ks (idKeys cs ks) := by
  intro cs
  induction cs with
  | nil => intro ks; rw [idKeys]
  | cons c cs' ih =>
    intro ks
    rw [idKeys]
    by_cases hmem : c.id ∈ ks
    · rw [if_pos hmem]; exact ih ks
    · rw [if_neg hmem]
      exact List.Sublist.trans (List.sublist_append_left ks [c.id]) (ih _)

theorem idKeys_eq_of_nodup : ∀ (cs : List Chunk) (ks : List Nat),
    (ks ++ cs.map Chunk.id).Nodup → idKeys cs ks = ks ++ cs.map Chunk.id := by
  intro cs
  induction cs with
  | nil => intro ks _; rw [idKeys]; simp
  | cons c cs' ih =>
    intro ks h
    have hmem : c.id ∉ ks := by
      rw [List.nodup_append] at h
      intro hc
      exact h.2.2 hc (by simp)
    rw [idKeys, if_neg hmem, ih _ (by simpa using h)]
    simp

/-! Chunk-map lookup lemmas. -/

theorem findChunk_setKey_self (k : Nat) (c : Chunk) :
    ∀ m, findChunk k (setKey k c m) = c := by
  intro m
  induction m with
  | nil => simp [setKey, findChunk]
  | cons p rest ih =>
    obtain ⟨k', c'⟩ := p
    unfold setKey
    by_cases h : k = k'
    · rw [if_pos h]
      simp [findChunk]
    · rw [if_neg h]
      have h' : ¬k' = k := fun e => h e.symm
      simp [findChunk, h', ih]

theorem findChunk_setKey_ne {k x : Nat} (h : ¬k = x) (c : Chunk) :
    ∀ m, findChunk x (setKey k c m) = findChunk x m := by
  intro m
  induction m with
  | nil => simp [setKey, findChunk, h]
  | cons p rest ih =>
    obtain ⟨k', c'⟩ := p
    unfold setKey
    by_cases hk : k = k'
    · subst hk
      simp [findChunk, h]
    · rw [if_neg hk]
      by_cases hx : k' = x
      · simp [findChunk, hx]
      · simp [findChunk, hx, ih]

theorem hasKeyC_setKey (x k : Nat) (c : Chunk) :
    ∀ m, hasKeyC x (setKey k c m) = true ↔ k = x ∨ hasKeyC x m = true := by
  intro m
  induction m with
  | nil => simp [setKey, hasKeyC]
  | cons p rest ih =>
    obtain ⟨k', c'⟩ := p
    unfold setKey
    by_cases hk : k = k'
    · subst hk
      simp [hasKeyC]
    · rw [if_neg hk]
      by_cases hx : k' = x
      · simp [hasKeyC, hx]
      · simp [hasKeyC, hx, ih]

theorem hasKeyC_append (x : Nat) : ∀ (m l : List (Nat × Chunk)),
    hasKeyC x (m ++ l) = (hasKeyC x m || hasKeyC x l) := by
  intro m l
  induction m with
  | nil => simp [hasKeyC]
  | cons p rest ih =>
    obtain ⟨k', c'⟩ := p
    simp [hasKeyC, ih, Bool.or_assoc]

theorem findChunk_append_of_no_key {x : Nat} :
    ∀ {m : List (Nat × Chunk)}, hasKeyC x m = false →
      ∀ l, findChunk x (m ++ l) = findChunk x l := by
  intro m
  induction m with
  | nil => intro _ l; simp
  | cons p rest ih =>
    obtain ⟨k', c'⟩ := p
    intro h l
    rw [hasKeyC] at h
    simp only [Bool.or_eq_false_iff] at h
    rw [List.cons_append, findChunk, if_neg (by
      intro e
      have := h.1
      simp [e] at this)]
    exact ih h.2 l

theorem findChunk_append_of_key {x : Nat} :
    ∀ {m : List (Nat × Chunk)}, hasKeyC x m = true →
      ∀ l, findChunk x (m ++ l) = findChunk x m := by
  intro m
  induction m with
  | nil => intro h; simp [hasKeyC] at h
  | cons p rest ih =>
    obtain ⟨k', c'⟩ := p
    intro h l
    rw [List.cons_append, findChunk, findChunk]
    by_cases hx : k' = x
    · rw [if_pos hx, if_pos hx]
    · rw [if_neg hx, if_neg hx]
      rw [hasKeyC] at h
      simp only [Bool.or_eq_true] at h
      rcases h with h | h
      · exact absurd (by simpa using h) hx
      · exact ih h l

/-! ## Fusion lemmas: consistency of the score dict and the chunk map -/

/-- After each loop step the score dict and the chunk map have equal
key sets, and every stored chunk sits under its own id and comes from
the processed pool. -/
def mapsOk (pool : List Chunk) (m : List (Nat × ℚ)) (cm : List (Nat × Chunk)) : Prop :=
  (∀ x, x ∈ m.map Prod.fst ↔ hasKeyC x cm = true) ∧
    ∀ x ∈ m.map Prod.fst, (findChunk x cm).id = x ∧ findChunk x cm ∈ pool

theorem vecLoop_mapsOk (w : ℚ) (pool : List Chunk) :
    ∀ (cs : List Chunk) (r : Nat) (m : List (Nat × ℚ)) (cm : List (Nat × Chunk)),
      (∀ c ∈ cs, c ∈ pool) → mapsOk pool m cm →
      mapsOk pool (vecLoop w r cs (m, cm)).1 (vecLoop w r cs (m, cm)).2 := by
  intro cs
  induction cs with
  | nil => intro r m cm _ h; rw [vecLoop]; exact h
  | cons c cs' ih =>
    intro r m cm hpool h
    rw [vecLoop]
    refine ih _ _ _ (fun d hd => hpool d (by simp [hd])) ⟨?_, ?_⟩
    · intro x
      rw [mem_keys_bump, hasKeyC_setKey]
      constructor
      · rintro (h1 | h1)
        · exact Or.inl h1.symm
        · exact Or.inr ((h.1 x).mp h1)
      · rintro (h1 | h1)
        · exact Or.inl h1.symm
        · exact Or.inr ((h.1 x).mpr h1)
    · intro x hx
      rw [mem_keys_bump] at hx
      by_cases hcx : c.id = x
      · subst hcx
        rw [findChunk_setKey_self]
        exact ⟨rfl, hpool c (by simp)⟩
      · rw [findChunk_setKey_ne hcx]
        rcases hx with h1 | h1
        · exact absurd h1.symm hcx
        · exact h.2 x h1

theorem kwLoop_mapsOk (w : ℚ) (pool : List Chunk) :
    ∀ (cs : List Chunk) (r : Nat) (m : List (Nat × ℚ)) (cm : List (Nat × Chunk)),
      (∀ c ∈ cs, c ∈ pool) → mapsOk pool m cm →
      mapsOk pool (kwLoop w r cs (m, cm)).1 (kwLoop w r cs (m, cm)).2 := by
  intro cs
  induction cs with
  | nil => intro r m cm _ h; rw [kwLoop]; exact h
  | cons c cs' ih =>
    intro r m cm hpool h
    rw [kwLoop]
    refine ih _ _ _ (fun d hd => hpool d (by simp [hd])) ?_
    unfold setIfAbsent
    by_cases hk : hasKeyC c.id cm = true
    · rw [if_pos hk]
      have hcm : c.id ∈ m.map Prod.fst := (h.1 c.id).mpr hk
      refine ⟨?_, ?_⟩
      · intro x
        rw [mem_keys_bump]
        constructor
        · rintro (h1 | h1)
          · subst h1; exact hk
          · exact (h.1 x).mp h1
        · intro h1
          exact Or.inr ((h.1 x).mpr h1)
      · intro x hx
        rw [mem_keys_bump] at hx
        rcases hx with h1 | h1
        · subst h1; exact h.2 c.id hcm
        · exact h.2 x h1
    · rw [if_neg hk]
      have hkf : hasKeyC c.id cm = false := by
        cases hcm : hasKeyC c.id cm
        · rfl
        · exact absurd hcm hk
      refine ⟨?_, ?_⟩
      · intro x
        rw [mem_keys_bump, hasKeyC_append]
        constructor
        · rintro (h1 | h1)
          · subst h1
            simp [hasKeyC]
          · rw [(h.1 x).mp h1]
            simp
        · intro h1
          simp only [Bool.or_eq_true] at h1
          rcases h1 with h1 | h1
          · exact Or.inr ((h.1 x).mpr h1)
          · simp only [hasKeyC, Bool.or_eq_false_iff] at h1
            left
            cases h2 : decide (c.id = x)
            · rw [h2] at h1; simp [hasKeyC] at h1
            · exact (of_decide_eq_true h2).symm
      · intro x hx
        rw [mem_keys_bump] at hx
        by_cases hcx : c.id = x
        · subst hcx
          rw [findChunk_append_of_no_key hkf]
          simp only [findChunk, if_pos rfl]
          exact ⟨rfl, hpool c (by simp)⟩
        · have h1 : x ∈ m.map Prod.fst := by
            rcases hx with h1 | h1
            · exact absurd h1.symm hcx
            · exact h1
          rw [findChunk_append_of_key ((h.1 x).mp h1)]
          exact h.2 x h1

/-- The final `(scores, chunk_map)` state is consistent with the pool
`v ++ k`. -/
theorem rrfState_mapsOk (v k : List Chunk) (vw kw : ℚ) :
    mapsOk (v ++ k) (rrfState v k vw kw).1 (rrfState v k vw kw).2 := by
  unfold rrfState
  rw [show vecLoop vw 1 v ([], []) =
      ((vecLoop vw 1 v ([], [])).1, (vecLoop vw 1 v ([], [])).2) from rfl]
  refine kwLoop_mapsOk kw (v ++ k) k 1 _ _ (fun c hc => by simp [hc]) ?_
  refine vecLoop_mapsOk vw (v ++ k) v 1 [] [] (fun c hc => by simp [hc]) ?_
  exact ⟨by intro x; simp [hasKeyC], by intro x hx; simp at hx⟩

/-- The final score of any id is the spec's accumulated
reciprocal-rank sum. -/
theorem rrfState_lookup (v k : List Chunk) (vw kw : ℚ) (x : Nat) :
    lookupD x (rrfState v k vw kw).1 =
      specContrib vw x 1 v + specContrib kw x 1 k := by
  unfold rrfState
  rw [show vecLoop vw 1 v ([], []) =
      ((vecLoop vw 1 v ([], [])).1, (vecLoop vw 1 v ([], [])).2) from rfl]
  rw [kwLoop_scores, vecLoop_scores]
  rw [show lookupD x [] = 0 from rfl]
  ring

/-- The final key list is the ids of `v ++ k` in first-occurrence
order. -/
theorem rrfState_keys (v k : List Chunk) (vw kw : ℚ) :
    ((rrfState v k vw kw).1).map Prod.fst = idKeys k (idKeys v []) := by
  unfold rrfState
  rw [show vecLoop vw 1 v ([], []) =
      ((vecLoop vw 1 v ([], [])).1, (vecLoop vw 1 v ([], [])).2) from rfl]
  rw [kwLoop_keys, vecLoop_keys]
  rfl

/-! ## RRF fusion: claim theorems -/

theorem mem_sortedIds (scores : List (Nat × ℚ)) (x : Nat) :
    x ∈ sortedIds scores ↔ x ∈ scores.map Prod.fst := by
  unfold sortedIds
  exact List.mem_insertionSort _

theorem map_id_rrf_fuse (v k : List Chunk) (vw kw : ℚ) :
    (rrf_fuse v k vw kw).map Chunk.id = sortedIds (rrfState v k vw kw).1 := by
  unfold rrf_fuse
  rw [List.map_map]
  have hcong : ∀ cid ∈ sortedIds (rrfState v k vw kw).1,
      (Chunk.id ∘ fun cid =>
        { findChunk cid (rrfState v k vw kw).2 with
          rrf_score := some (lookupD cid (rrfState v k vw kw).1) }) cid =
        (fun cid => cid) cid := by
    intro cid hcid
    rw [mem_sortedIds] at hcid
    simp only [Function.comp]
    exact ((rrfState_mapsOk v k vw kw).2 cid hcid).1
  rw [List.map_eq_map_iff.mpr hcong]
  exact List.map_id _

/-- The chunks demonstrating the spec's fusion example:
`vector=[c1,c2]`, `lexical=[c2,c3]`. -/
def exC1 : Chunk := { id := 1, document_id := 10, chunk_text := "c1", citation := "" }

def exC2v : Chunk := { id := 2, document_id := 10, chunk_text := "c2", citation := "" }

def exC2k : Chunk := { id := 2, document_id := 10, chunk_text := "c2dup", citation := "" }

def exC3 : Chunk := { id := 3, document_id := 11, chunk_text := "c3", citation := "" }

/-- C3 counterexample: the claim gives `c2` the score
`0.6/61 + 0.4/61`, but `c2` sits at rank 2 of the vector list, so
`rrf_fuse` gives it `0.6/62 + 0.4/61`. -/
theorem rrf_score_counterexample :
    (rrf_fuse [exC1, exC2v] [exC2k, exC3]).map (fun c => (c.id, c.rrf_score)) ≠
      [(2, some ((3 : ℚ)/5/61 + (2 : ℚ)/5/61)), (1, some ((3 : ℚ)/5/61)),
        (3, some ((2 : ℚ)/5/62))] := by
  norm_num [rrf_fuse, rrfState, sortedIds, vecLoop, kwLoop, bump, lookupD, setKey,
    setIfAbsent, hasKeyC, findChunk, keyDesc, RRF_K, List.insertionSort,
    List.orderedInsert, exC1, exC2v, exC2k, exC3]

/-- C3 amended: `rrf_fuse` accumulates `weight/(K+rank)` over 1-indexed
ranks (vector weight 0.6, keyword weight 0.4, K = 60), outputs each
chunk id exactly once, sorted by descending fused score with the stable
sort preserving vector-list order for non-increasing (in particular
equal) scores; on `vector=[c1,c2]`, `lexical=[c2,c3]` the order is
`[c2, c1, c3]` with scores `0.6/62 + 0.4/61`, `0.6/61`, `0.4/62` (the
claim's `0.6/61 + 0.4/61` for `c2` is off by one rank). -/
theorem rrf_fuse_spec_amended (v k : List Chunk) :
    (∀ c ∈ rrf_fuse v k, c.rrf_score = some (specScore v k c.id))
    ∧ ((rrf_fuse v k).map Chunk.id).Nodup
    ∧ (∀ x, x ∈ (rrf_fuse v k).map Chunk.id ↔
        x ∈ v.map Chunk.id ∨ x ∈ k.map Chunk.id)
    ∧ (rrf_fuse v k).Pairwise
        (fun a b => specScore v k b.id ≤ specScore v k a.id)
    ∧ ((v.map Chunk.id).Nodup → ∀ a b : Nat,
        List.Sublist [a, b] (v.map Chunk.id) → specScore v k b ≤ specScore v k a →
        List.Sublist [a, b] ((rrf_fuse v k).map Chunk.id))
    ∧ (rrf_fuse [exC1, exC2v] [exC2k, exC3]).map (fun c => (c.id, c.rrf_score)) =
        [(2, some ((3 : ℚ)/5/62 + (2 : ℚ)/5/61)), (1, some ((3 : ℚ)/5/61)),
          (3, some ((2 : ℚ)/5/62))] := by
  have hok := rrfState_mapsOk v k (3/5) (2/5)
  refine ⟨?_, ?_, ?_, ?_, ?_, ?_⟩
  · -- accumulated scores
    intro c hc
    unfold rrf_fuse at hc
    obtain ⟨cid, hcid, rfl⟩ := List.mem_map.mp hc
    rw [mem_sortedIds] at hcid
    have hid := (hok.2 cid hcid).1
    simp only [hid]
    rw [rrfState_lookup]
    rfl
  · -- each id exactly once
    rw [map_id_rrf_fuse]
    unfold sortedIds
    have hperm := List.perm_insertionSort
      (keyDesc (fun cid => lookupD cid (rrfState v k (3/5) (2/5)).1))
      (((rrfState v k (3/5) (2/5)).1).map Prod.fst)
    refine (hperm.symm).nodup ?_
    rw [rrfState_keys]
    exact idKeys_nodup _ _ (idKeys_nodup _ _ (List.nodup_nil))
  · -- ids are exactly those of the inputs
    intro x
    rw [map_id_rrf_fuse, mem_sortedIds, rrfState_keys, mem_idKeys, mem_idKeys]
    simp
  · -- descending fused score
    unfold rrf_fuse
    rw [List.pairwise_map]
    have hs := List.sorted_insertionSort
      (keyDesc (fun cid => lookupD cid (rrfState v k (3/5) (2/5)).1))
      (((rrfState v k (3/5) (2/5)).1).map Prod.fst)
    refine List.Pairwise.imp_of_mem ?_ hs
    intro a b ha hb hab
    rw [show (sortedIds (rrfState v k (3/5) (2/5)).1) =
        List.insertionSort (keyDesc (fun cid => lookupD cid (rrfState v k (3/5) (2/5)).1))
          (((rrfState v k (3/5) (2/5)).1).map Prod.fst) from rfl] at ha hb
    rw [List.mem_insertionSort] at ha hb
    have hida := (hok.2 a ha).1
    have hidb := (hok.2 b hb).1
    simp only [hida, hidb]
    unfold keyDesc at hab
    dsimp only at hab
    rw [rrfState_lookup, rrfState_lookup] at hab
    unfold specScore
    exact hab
  · -- stable tie-breaking by vector order
    intro hnd a b hsub hscore
    rw [map_id_rrf_fuse]
    unfold sortedIds
    refine List.pair_sublist_insertionSort ?_ ?_
    · show lookupD b (rrfState v k (3/5) (2/5)).1 ≤ lookupD a (rrfState v k (3/5) (2/5)).1
      rw [rrfState_lookup, rrfState_lookup]
      unfold specScore at hscore
      exact hscore
    · rw [rrfState_keys]
      have h1 : idKeys v [] = v.map Chunk.id := by
        have := idKeys_eq_of_nodup v [] (by simpa using hnd)
        simpa using this
      refine List.Sublist.trans ?_ (idKeys_extends k (idKeys v []))
      rw [h1]
      exact hsub
  · -- the spec's concrete example, with the corrected score for c2
    norm_num [rrf_fuse, rrfState, sortedIds, vecLoop, kwLoop, bump, lookupD, setKey,
      setIfAbsent, hasKeyC, findChunk, keyDesc, RRF_K, List.insertionSort,
      List.orderedInsert, exC1, exC2v, exC2k, exC3, specScore, specContrib]

/-- Witness for the C3 amended theorem: concrete instances of the
score part and the stability part. -/
theorem rrf_fuse_spec_amended_witness :
    List.Sublist [1, 2] ((rrf_fuse [exC1, exC2v] []).map Chunk.id) :=
  (rrf_fuse_spec_amended [exC1, exC2v] []).2.2.2.2.1 (by decide) 1 2
    (by decide)
    (by norm_num [specScore, specContrib, RRF_K, exC1, exC2v])

/-- C10: every output record of `rrf_fuse` is an input record with only
the `rrf_score` field (over)written.  (In Python the write happens in
place on the very dict objects of the input lists; the pure model
expresses the same field-frame condition on the returned records.) -/
theorem rrf_fuse_frame (v k : List Chunk) :
    ∀ c ∈ rrf_fuse v k, ∃ r, r ∈ v ++ k ∧ ∃ s : ℚ,
      c = { r with rrf_score := some s } := by
  intro c hc
  unfold rrf_fuse at hc
  obtain ⟨cid, hcid, rfl⟩ := List.mem_map.mp hc
  rw [mem_sortedIds] at hcid
  have hok := rrfState_mapsOk v k (3/5) (2/5)
  exact ⟨findChunk cid (rrfState v k (3/5) (2/5)).2, (hok.2 cid hcid).2,
    lookupD cid (rrfState v k (3/5) (2/5)).1, rfl⟩

theorem rrf_fuse_single :
    rrf_fuse [exC1] [] = [{ exC1 with rrf_score := some ((3 : ℚ)/5/61) }] := by
  norm_num [rrf_fuse, rrfState, sortedIds, vecLoop, kwLoop, bump, lookupD, setKey,
    setIfAbsent, hasKeyC, findChunk, keyDesc, RRF_K, List.insertionSort,
    List.orderedInsert, exC1]

/-- Witness for C10 at a concrete input. -/
theorem rrf_fuse_frame_witness :
    ∃ r, r ∈ [exC1] ++ [] ∧ ∃ s : ℚ,
      { exC1 with rrf_score := some ((3 : ℚ)/5/61) } = { r with rrf_score := some s } :=
  rrf_fuse_frame [exC1] [] _ (by rw [rrf_fuse_single]; exact List.mem_cons_self _ _)

/-! ## Fusion with an empty keyword list (C8) -/

theorem specContrib_eq_zero (w : ℚ) (cid : Nat) :
    ∀ (cs : List Chunk) (r : Nat), cid ∉ cs.map Chunk.id →
      specContrib w cid r cs = 0 := by
  intro cs
  induction cs with
  | nil => intro r _; rw [specContrib]
  | cons c cs' ih =>
    intro r h
    simp only [List.map_cons, List.mem_cons] at h
    rw [specContrib, if_neg (fun e => h (Or.inl e.symm)),
      ih (r + 1) (fun e => h (Or.inr e))]
    ring

theorem rrfK_add_pos (r : Nat) : (0 : ℚ) < RRF_K + r := by
  unfold RRF_K
  positivity

theorem specContrib_le (w : ℚ) (hw : 0 ≤ w) (cid : Nat) :
    ∀ (cs : List Chunk) (r : Nat), ((cs.map Chunk.id).Nodup) →
      specContrib w cid r cs ≤ w / (RRF_K + r) := by
  intro cs
  induction cs with
  | nil =>
    intro r _
    rw [specContrib]
    exact div_nonneg hw (le_of_lt (rrfK_add_pos r))
  | cons c cs' ih =>
    intro r hnd
    simp only [List.map_cons, List.nodup_cons] at hnd
    rw [specContrib]
    by_cases h : c.id = cid
    · rw [if_pos h]
      rw [specContrib_eq_zero w cid cs' (r + 1) (h ▸ hnd.1)]
      simp
    · rw [if_neg h, zero_add]
      refine le_trans (ih (r + 1) hnd.2) ?_
      have h1 : (RRF_K : ℚ) + r ≤ RRF_K + (r + 1 : Nat) := by
        push_cast
        linarith
      exact div_le_div_of_nonneg_left hw (rrfK_add_pos r) (by
        push_cast at h1 ⊢
        linarith) |>.trans_eq rfl

theorem specContrib_desc (w : ℚ) (hw : 0 ≤ w) :
    ∀ (cs : List Chunk) (r : Nat), ((cs.map Chunk.id).Nodup) →
      List.Pairwise (fun x y => specContrib w y r cs ≤ specContrib w x r cs)
        (cs.map Chunk.id) := by
  intro cs
  induction cs with
  | nil => intro r _; simp
  | cons c cs' ih =>
    intro r hnd
    have hnd' := hnd
    simp only [List.map_cons, List.nodup_cons] at hnd'
    rw [List.map_cons, List.pairwise_cons]
    constructor
    · intro y hy
      have hcy : ¬c.id = y := fun e => hnd'.1 (e ▸ hy)
      rw [specContrib, if_neg hcy, zero_add]
      rw [specContrib, if_pos rfl, specContrib_eq_zero w c.id cs' (r + 1) hnd'.1]
      refine le_trans (specContrib_le w hw y cs' (r + 1) hnd'.2) ?_
      rw [add_zero]
      refine div_le_div_of_nonneg_left hw (rrfK_add_pos r) ?_
      push_cast
      linarith
    · refine List.Pairwise.imp_of_mem ?_ (ih (r + 1) hnd'.2)
      intro x y hx hy h
      have hcx : ¬c.id = x := fun e => hnd'.1 (e ▸ hx)
      have hcy : ¬c.id = y := fun e => hnd'.1 (e ▸ hy)
      rw [specContrib, if_neg hcy, zero_add, specContrib, if_neg hcx, zero_add]
      exact h

theorem vecLoop_untouched (w : ℚ) (x : Nat) :
    ∀ (cs : List Chunk) (r : Nat) (m : List (Nat × ℚ)) (cm : List (Nat × Chunk)),
      x ∉ cs.map Chunk.id →
      findChunk x ((vecLoop w r cs (m, cm)).2) = findChunk x cm := by
  intro cs
  induction cs with
  | nil => intro r m cm _; rw [vecLoop]
  | cons c cs' ih =>
    intro r m cm h
    simp only [List.map_cons, List.mem_cons] at h
    rw [vecLoop, ih _ _ _ (fun e => h (Or.inr e)),
      findChunk_setKey_ne (fun e => h (Or.inl e.symm))]

theorem vecLoop_find (w : ℚ) :
    ∀ (cs : List Chunk) (r : Nat) (m : List (Nat × ℚ)) (cm : List (Nat × Chunk)),
      ((cs.map Chunk.id).Nodup) → ∀ c ∈ cs,
      findChunk c.id ((vecLoop w r cs (m, cm)).2) = c := by
  intro cs
  induction cs with
  | nil => intro r m cm _ c hc; simp at hc
  | cons d cs' ih =>
    intro r m cm hnd c hc
    simp only [List.map_cons, List.nodup_cons] at hnd
    rcases List.mem_cons.mp hc with h | h
    · subst h
      rw [vecLoop, vecLoop_untouched w c.id cs' _ _ _ hnd.1,
        findChunk_setKey_self]
    · rw [vecLoop]
      exact ih _ _ _ hnd.2 c h

/-- C8: fusing a vector list with an empty keyword list keeps the list
in its original order; only `rrf_score` changes on each record, and it
is set to the rank-`r` contribution `0.6/(60+r)`. -/
theorem fuse_empty_keeps_order (v : List Chunk) (hnd : (v.map Chunk.id).Nodup) :
    (rrf_fuse v []).map (fun c => { c with rrf_score := none }) =
      v.map (fun c => { c with rrf_score := none })
    ∧ ∀ c ∈ rrf_fuse v [], c.rrf_score = some (specScore v [] c.id) := by
  have hkeys : ((rrfState v [] (3/5) (2/5)).1).map Prod.fst = v.map Chunk.id := by
    rw [rrfState_keys, idKeys]
    have := idKeys_eq_of_nodup v [] (by simpa using hnd)
    simpa using this
  have hpair : List.Pairwise
      (keyDesc (fun cid => lookupD cid (rrfState v [] (3/5) (2/5)).1))
      (v.map Chunk.id) := by
    refine List.Pairwise.imp_of_mem ?_
      (specContrib_desc (3/5) (by norm_num) v 1 hnd)
    intro x y _ _ h
    show lookupD y (rrfState v [] (3/5) (2/5)).1 ≤ lookupD x (rrfState v [] (3/5) (2/5)).1
    rw [rrfState_lookup, rrfState_lookup, specContrib, specContrib]
    simpa using h
  have hsorted : sortedIds (rrfState v [] (3/5) (2/5)).1 = v.map Chunk.id := by
    unfold sortedIds
    rw [hkeys]
    exact List.Sorted.insertionSort_eq hpair
  have hcm : (rrfState v [] (3/5) (2/5)).2 = (vecLoop (3/5) 1 v ([], [])).2 := by
    rw [rrfState, kwLoop]
  have hfind : ∀ c ∈ v, findChunk c.id (rrfState v [] (3/5) (2/5)).2 = c := by
    intro c hc
    rw [hcm]
    exact vecLoop_find (3/5) v 1 [] [] hnd c hc
  constructor
  · unfold rrf_fuse
    rw [hsorted, List.map_map, List.map_map]
    refine List.map_eq_map_iff.mpr ?_
    intro c hc
    simp only [Function.comp]
    rw [hfind c hc]
  · intro c hc
    unfold rrf_fuse at hc
    obtain ⟨cid, hcid, rfl⟩ := List.mem_map.mp hc
    rw [mem_sortedIds] at hcid
    have hid := ((rrfState_mapsOk v [] (3/5) (2/5)).2 cid hcid).1
    simp only [hid]
    rw [rrfState_lookup]
    rfl

/-- Witness for C8 at a concrete three-element vector list. -/
theorem fuse_empty_keeps_order_witness :
    (rrf_fuse [exC1, exC2v, exC3] []).map (fun c => { c with rrf_score := none }) =
      [exC1, exC2v, exC3].map (fun c => { c with rrf_score := none }) :=
  (fuse_empty_keeps_order [exC1, exC2v, exC3] (by decide)).1

/-! ## Orchestrator claims (C1, C5, C9) -/

/-- The events a `rerank` call can emit are only provider calls of its
two tiers. -/
theorem rerank_events (env : Env) (q : String) (cs : List Chunk) (n : Nat) :
    ∀ e ∈ (rerank env q cs n).2, e = Event.cohereCall ∨ e = Event.llmCall := by
  intro e he
  unfold rerank at he
  rcases h : rerank_cohere env q cs n with ⟨o, ev⟩
  have hev : ∀ e ∈ ev, e = Event.cohereCall := by
    unfold rerank_cohere at h
    split at h
    · obtain ⟨rfl, rfl⟩ := Prod.mk.injEq .. ▸ And.intro (congrArg Prod.fst h) (congrArg Prod.snd h)
      intro e he2
      simp at he2
    · split at h
      · have := congrArg Prod.snd h
        simp only at this
        rw [← this]
        intro e he2
        simp at he2
      · split at h
        · have := congrArg Prod.snd h
          simp only at this
          rw [← this]
          intro e he2
          simp only [List.mem_singleton] at he2
          exact he2
        · split at h
          · have := congrArg Prod.snd h
            simp only at this
            rw [← this]
            intro e he2
            simp only [List.mem_singleton] at he2
            exact he2
          · have := congrArg Prod.snd h
            simp only at this
            rw [← this]
            intro e he2
            simp only [List.mem_singleton] at he2
            exact he2
  rw [h] at he
  cases o with
  | some r =>
    simp only at he
    exact Or.inl (hev e he)
  | none =>
    simp only at he
    have hllm : ∀ e ∈ (rerank_with_llm env q cs n).2, e = Event.llmCall := by
      unfold rerank_with_llm
      split
      · intro e he2; simp at he2
      · split
        · intro e he2
          simp only [List.mem_singleton] at he2
          exact he2
        · intro e he2
          simp only [List.mem_singleton] at he2
          exact he2
    rcases List.mem_append.mp he with h1 | h1
    · exact Or.inl (hev e h1)
    · exact Or.inr (hllm e h1)

/-- C5: when the requested tags resolve to an empty document set,
`retrieve` returns `Except.ok []` having performed only the tag-scope
lookup — no embedding, search, or rerank call appears in the trace. -/
theorem empty_scope_short_circuit (env : Env) (q : String) (top_k : Nat)
    (pid : Option String) (ts : List String) (hne : ts ≠ [])
    (hres : env.taggedDocIds ts pid = .ok []) :
    retrieve env q top_k pid (some ts) = (.ok [], [Event.resolveTags ts pid]) := by
  simp only [retrieve, Option.getD]
  rw [if_pos hne, hres]
  rfl

/-- An environment whose providers all fail (while tag resolution
succeeds with an empty document set). -/
def envAllFail : Env :=
  { taggedDocIds := fun _ _ => .ok []
    embedQuery := fun _ => .error ()
    vecSearchRpc := fun _ _ _ _ => .error ()
    kwSearchRaw := fun _ _ _ _ => .error ()
    cohereKey := true
    cohereRerank := fun _ _ _ => .error ()
    llmScores := fun _ => .error () }

/-- Embedding succeeds and vector search succeeds (with empty results),
but the lexical backend and both rerank tiers fail. -/
def envSearchOk : Env :=
  { taggedDocIds := fun _ _ => .ok []
    embedQuery := fun _ => .ok []
    vecSearchRpc := fun _ _ _ _ => .ok []
    kwSearchRaw := fun _ _ _ _ => .error ()
    cohereKey := true
    cohereRerank := fun _ _ _ => .error ()
    llmScores := fun _ => .error () }

/-- Witness for C5 at a concrete environment and tag list. -/
theorem empty_scope_short_circuit_witness :
    retrieve envAllFail "q" 6 none (some ["nonexistent-tag"]) =
      (.ok [], [Event.resolveTags ["nonexistent-tag"] none]) :=
  empty_scope_short_circuit envAllFail "q" 6 none ["nonexistent-tag"]
    (List.cons_ne_nil _ _) rfl

/-- C9: `tags = some []` is Python-falsy like `tags = None`: the whole
call (result and trace) is identical, no tag-scope lookup happens, and
any vector search uses the unscoped `top_k * 3` over-fetch. -/
theorem empty_tag_list_like_none (env : Env) (q : String) (top_k : Nat)
    (pid : Option String) :
    retrieve env q top_k pid (some []) = retrieve env q top_k pid none
    ∧ (∀ ts ps, Event.resolveTags ts ps ∉ (retrieve env q top_k pid (some [])).2)
    ∧ (∀ j, Event.vecSearch j ∈ (retrieve env q top_k pid (some [])).2 →
        j = top_k * 3) := by
  have hcore : retrieve env q top_k pid (some []) =
      retrieveCore env q top_k pid none [] := by
    simp [retrieve]
  refine ⟨by rw [hcore]; simp [retrieve], ?_, ?_⟩
  · intro ts ps hmem
    rw [hcore] at hmem
    have hif : (if (none : Option (List Nat)).getD [] ≠ [] then top_k * 6
        else top_k * 3) = top_k * 3 := by simp
    simp only [retrieveCore, hif] at hmem
    rcases he : env.embedQuery q with e | emb <;> simp only [he] at hmem
    · simp at hmem
    · rcases hv : env.vecSearchRpc emb (top_k * 3) ((3 : ℚ)/10) pid with e | vr <;>
        simp only [hv] at hmem
      · simp at hmem
      · simp only [List.nil_append, List.mem_append, List.mem_cons,
          List.mem_singleton] at hmem
        rcases hmem with (h1 | h1 | h1) | h1
        · exact absurd h1 (by simp)
        · exact absurd h1 (by simp)
        · exact absurd h1 (by simp)
        · rcases rerank_events env q _ top_k _ h1 with h2 | h2 <;> simp at h2
  · intro j hmem
    rw [hcore] at hmem
    have hif : (if (none : Option (List Nat)).getD [] ≠ [] then top_k * 6
        else top_k * 3) = top_k * 3 := by simp
    simp only [retrieveCore, hif] at hmem
    rcases he : env.embedQuery q with e | emb <;> simp only [he] at hmem
    · simp at hmem
    · rcases hv : env.vecSearchRpc emb (top_k * 3) ((3 : ℚ)/10) pid with e | vr <;>
        simp only [hv] at hmem
      · simp only [List.nil_append, List.mem_cons, List.mem_singleton] at hmem
        rcases hmem with h1 | h1
        · exact absurd h1 (by simp)
        · simpa using h1
      · simp only [List.nil_append, List.mem_append, List.mem_cons,
          List.mem_singleton] at hmem
        rcases hmem with (h1 | h1 | h1) | h1
        · exact absurd h1 (by simp)
        · simpa using h1
        · exact absurd h1 (by simp)
        · rcases rerank_events env q _ top_k _ h1 with h2 | h2 <;> simp at h2

/-- Witness for C9's trace conjunct at a concrete environment where a
vector search actually happens. -/
theorem empty_tag_list_like_none_witness : (18 : Nat) = 6 * 3 :=
  (empty_tag_list_like_none envSearchOk "q" 6 none).2.2 18 (by
    show Event.vecSearch 18 ∈ (retrieve envSearchOk "q" 6 none (some [])).2
    have : retrieve envSearchOk "q" 6 none (some []) =
        (.ok [], [Event.embed "q", Event.vecSearch 18, Event.kwSearch 18]) := rfl
    rw [this]
    simp)

/-! ## C1: which provider failures propagate out of `retrieve` -/

/-- Like `envSearchOk` but with a failing embedding provider. -/
def envEmbedFail : Env :=
  { envSearchOk with embedQuery := fun _ => .error () }

/-- Like `envSearchOk` but with a failing vector-search backend. -/
def envVecFail : Env :=
  { envSearchOk with vecSearchRpc := fun _ _ _ _ => .error () }

/-- Like `envSearchOk` but tag-scope resolution (the Supabase queries
of `_get_tagged_doc_ids`) fails. -/
def envTagFail : Env :=
  { envSearchOk with taggedDocIds := fun _ _ => .error () }

/-- C1 counterexample: a failed embedding call, a failed vector search
call, and — on a tag-scoped call — a failed tag-resolution query each
propagate out of `retrieve` as an exception (`Except.error`) instead
of degrading to an empty list. -/
theorem retrieve_raises_counterexample :
    (retrieve envEmbedFail "q" 6 none none).1 = .error ()
    ∧ (retrieve envVecFail "q" 6 none none).1 = .error ()
    ∧ (retrieve envTagFail "q" 6 none (some ["t"])).1 = .error () :=
  ⟨rfl, rfl, rfl⟩

/-- C1 amended: `retrieve` cannot raise once tag-scope resolution
(relevant only when a nonempty tag list is passed), the embedding call
and the vector search call succeed — a lexical-search failure degrades
to an empty keyword list and rerank-tier failures fall through — but a
tag-resolution, embedding, or vector-search failure does propagate to
the caller (`_get_tagged_doc_ids`, `embed_query` and `vector_search`
have no `try/except`). -/
theorem retrieve_ok_of_resolve_embed_vec_ok (env : Env) (q : String) (top_k : Nat)
    (pid : Option String) (tags : Option (List String))
    (hres : ∀ ts p, ∃ ids, env.taggedDocIds ts p = .ok ids)
    (hemb : ∀ s, ∃ r, env.embedQuery s = .ok r)
    (hvec : ∀ e fk th p, ∃ r, env.vecSearchRpc e fk th p = .ok r) :
    ∃ l, (retrieve env q top_k pid tags).1 = .ok l := by
  have hcore : ∀ (doc_ids : Option (List Nat)) (ev0 : List Event),
      ∃ l, (retrieveCore env q top_k pid doc_ids ev0).1 = .ok l := by
    intro doc_ids ev0
    obtain ⟨emb, he⟩ := hemb q
    obtain ⟨vr, hv⟩ := hvec emb
      (if doc_ids.getD [] ≠ [] then top_k * 6 else top_k * 3) ((3 : ℚ)/10) pid
    simp only [retrieveCore, he, hv]
    exact ⟨_, rfl⟩
  simp only [retrieve]
  by_cases ht : tags.getD [] ≠ []
  · rw [if_pos ht]
    obtain ⟨ids, hd⟩ := hres (tags.getD []) pid
    simp only [hd]
    by_cases hi : ids = []
    · rw [if_pos hi]
      exact ⟨[], rfl⟩
    · rw [if_neg hi]
      exact hcore _ _
  · rw [if_neg ht]
    exact hcore none []

/-- Witness for the C1 amended theorem: with tag resolution, embedding
and vector search succeeding but the lexical backend and every rerank
tier failing, `retrieve` still returns `Except.ok`. -/
theorem retrieve_ok_of_resolve_embed_vec_ok_witness :
    ∃ l, (retrieve envSearchOk "q" 6 none none).1 = .ok l :=
  retrieve_ok_of_resolve_embed_vec_ok envSearchOk "q" 6 none none
    (fun ts p => ⟨[], rfl⟩) (fun s => ⟨[], rfl⟩) (fun e fk th p => ⟨[], rfl⟩)

/-! ## C2: rerank count and tier fallback -/

/-- The primary rerank provider's documented contract: a successful
response carries `min(top_n, len(documents))` results, each indexing a
document. -/
def cohereWellFormed (env : Env) : Prop :=
  ∀ q docs n res, env.cohereRerank q docs n = .ok res →
    res.length = min n docs.length ∧ ∀ p ∈ res, p.1 < docs.length

theorem length_mkCohereDocs (chunks : List Chunk) :
    (mkCohereDocs chunks).length = chunks.length := by
  unfold mkCohereDocs
  exact List.length_map _ _

/-- C2: `rerank` always returns exactly `min(top_k, len(candidates))`
items (the model is a total function — every tier failure is caught),
and when the Cohere tier fails (missing key or call failure) and the
fallback scorer also fails, the result is the first
`min(top_k, len(candidates))` candidates in the given (fused) order. -/
theorem rerank_count_and_fallback (env : Env) (query : String)
    (chunks : List Chunk) (top_k : Nat) (hwf : cohereWellFormed env) :
    (rerank env query chunks top_k).1.length = min top_k chunks.length
    ∧ ((env.cohereKey = false ∨
          env.cohereRerank query (mkCohereDocs chunks) top_k = .error ()) →
        env.llmScores (mkLlmPrompt query chunks) = .error () →
        (rerank env query chunks top_k).1 = chunks.take top_k) := by
  have hllm_len : (rerank_with_llm env query chunks top_k).1.length =
      min top_k chunks.length := by
    unfold rerank_with_llm
    split
    · simp
    · rcases hl : env.llmScores (mkLlmPrompt query chunks) with e | scores
      · simp
      · simp only
        rw [List.length_map, List.length_take, List.length_insertionSort,
          List.length_map, List.length_range]
  constructor
  · unfold rerank
    rcases hrc : rerank_cohere env query chunks top_k with ⟨o, ev⟩
    cases o with
    | some r =>
      simp only
      unfold rerank_cohere at hrc
      split at hrc
      · rename_i hfast
        have : some (chunks.take top_k) = some r := congrArg Prod.fst hrc
        rw [← Option.some.inj this]
        simp
      · split at hrc
        · exact absurd (congrArg Prod.fst hrc) (by simp)
        · split at hrc
          · exact absurd (congrArg Prod.fst hrc) (by simp)
          · rename_i results hok
            split at hrc
            · have hr : some (results.map (fun r =>
                  { chunks.getD r.1 default with rerank_score := some r.2 })) = some r :=
                congrArg Prod.fst hrc
              rw [← Option.some.inj hr]
              rw [List.length_map]
              have := (hwf query (mkCohereDocs chunks) top_k results hok).1
              rw [this, length_mkCohereDocs]
            · exact absurd (congrArg Prod.fst hrc) (by simp)
    | none =>
      simp only
      exact hllm_len
  · intro hco hllm
    have hcnone : ∀ hfast : ¬(chunks.length = 0 ∨ chunks.length ≤ top_k),
        (rerank_cohere env query chunks top_k).1 = none := by
      intro hfast
      unfold rerank_cohere
      rw [if_neg hfast]
      rcases hco with hkey | herr
      · rw [if_pos (by rw [hkey]; simp)]
      · by_cases hk : env.cohereKey
        · rw [if_neg (by simpa using hk), herr]
        · rw [if_pos (by simpa using hk)]
    by_cases hfast : chunks.length = 0 ∨ chunks.length ≤ top_k
    · unfold rerank rerank_cohere
      rw [if_pos hfast]
    · unfold rerank
      rcases hrc : rerank_cohere env query chunks top_k with ⟨o, ev⟩
      have : o = none := by
        have := hcnone hfast
        rw [hrc] at this
        exact this
      subst this
      simp only
      unfold rerank_with_llm
      rw [if_neg hfast, hllm]

/-- Concrete candidates for the C2 witness. -/
def exChunks : List Chunk := [exC1, exC2v, exC3]

/-- Witness for C2: with the key present but both the Cohere call and
the fallback scorer failing, `rerank` returns the first
`min(2, 3) = 2` candidates in pre-rerank order. -/
theorem rerank_count_and_fallback_witness :
    (rerank envAllFail "q" exChunks 2).1.length = min 2 exChunks.length
    ∧ (rerank envAllFail "q" exChunks 2).1 = exChunks.take 2 := by
  have hwf : cohereWellFormed envAllFail := by
    intro q docs n res h
    exact absurd h (by simp [envAllFail])
  have h := rerank_count_and_fallback envAllFail "q" exChunks 2 hwf
  exact ⟨h.1, h.2 (Or.inr rfl) rfl⟩

end RagPlatform
